import Mathlib

/-!
Verification of the SpatialIndex spatial-indexing core.

This file gives a shallow embedding, in Lean 4, of the parts of the
`spindex` package that the specification talks about:

* the envelope algebra on batches of axis-aligned minimum bounding
  rectangles (`src/spindex/envelope.py`, class `AAMBRVect`);
* the Sort-Tile-Recurse bulk packing algorithm
  (`src/spindex/str.py`, `sort_tile_recurse`, `_concat`);
* the level-synchronous branch-and-bound search engine and the
  k-nearest-neighbour pruning state (`src/spindex/tree.py`, `BVH`).

Numeric model: the Python code computes with numpy float64.  We model
coordinates exactly as rationals and Euclidean lengths as `Real.sqrt`
of a rational sum of squares, which is the exact-real semantics of the
formulas implemented by the code.  Masked numpy arrays are modelled as
matrices of `(value, mask)` cells; numpy's documented behaviour that a
masked array used as an index into a plain array is treated as its
underlying data (the mask is ignored) is modelled faithfully.
-/

namespace Spindex

/-- A batch of `M` axis-aligned minimum bounding rectangles in `D`
dimensions, stored columnar as in `AAMBRVect`: `mins[m,d]`, `maxs[m,d]`. -/
structure AAMBRVect (M D : ℕ) where
  mins : Fin M → Fin D → ℚ
  maxs : Fin M → Fin D → ℚ

variable {M K D : ℕ}

/-- `AAMBRVect._intersects_by_dims`: per-dimension strict overlap test,
`self.mins < other.maxs  &  self.maxs > other.mins`. -/
def intersectsByDims (a : AAMBRVect M D) (b : AAMBRVect K D)
    (m : Fin M) (k : Fin K) (d : Fin D) : Bool :=
  decide (a.mins m d < b.maxs k d) && decide (a.maxs m d > b.mins k d)

/-- `AAMBRVect.intersects`: all-dimensions reduction (`.all(axis=2)`) of the
per-dimension strict overlap test. -/
def intersects (a : AAMBRVect M D) (b : AAMBRVect K D)
    (m : Fin M) (k : Fin K) : Bool :=
  (List.finRange D).all fun d => intersectsByDims a b m k d

/-- `AAMBRVect._dist_by_dims`: the stacked pair of per-dimension absolute
differences, axis 0 indexing the two stacked arrays
`|self.mins - other.maxs|` and `|self.maxs - other.mins|`. -/
def distByDims (a : AAMBRVect M D) (b : AAMBRVect K D)
    (m : Fin M) (k : Fin K) (i : Fin 2) (d : Fin D) : ℚ :=
  if i = 0 then |a.mins m d - b.maxs k d| else |a.maxs m d - b.mins k d|

/-- `AAMBRVect.distance` (MINDIST): per-dimension minimum of the stacked
absolute differences, forced to `0` on dimensions that strictly overlap,
then `sqrt` of the sum of squares. -/
noncomputable def distance (a : AAMBRVect M D) (b : AAMBRVect K D)
    (m : Fin M) (k : Fin K) : ℝ :=
  Real.sqrt ((∑ d, (if intersectsByDims a b m k d then 0
    else min (distByDims a b m k 0 d) (distByDims a b m k 1 d)) ^ 2 : ℚ))

/-- `AAMBRVect.maxdist`: per-dimension maximum of the stacked absolute
differences, then `sqrt` of the sum of squares. -/
noncomputable def maxdist (a : AAMBRVect M D) (b : AAMBRVect K D)
    (m : Fin M) (k : Fin K) : ℝ :=
  Real.sqrt ((∑ d, (max (distByDims a b m k 0 d) (distByDims a b m k 1 d)) ^ 2 : ℚ))

/-- `AAMBRVect.boundary`: the `2*D` axis-aligned faces of one rectangle.
Face `i < D` replaces the dimension-`i` max by the min (`res[:, i, i, 1] =
coords[:, i, 0]`); face `D + i` replaces the dimension-`i` min by the max
(`res[:, D+i, i, 0] = coords[:, i, 1]`).  Result is the `(mins, maxs)`
pair of the face. -/
def boundary (a : AAMBRVect M D) (m : Fin M) (i : Fin (2 * D)) :
    (Fin D → ℚ) × (Fin D → ℚ) :=
  if h : (i : ℕ) < D then
    (a.mins m, Function.update (a.maxs m) ⟨i, h⟩ (a.mins m ⟨i, h⟩))
  else
    (Function.update (a.mins m) ⟨(i : ℕ) - D, by omega⟩
        (a.maxs m ⟨(i : ℕ) - D, by omega⟩),
     a.maxs m)

/-- Minimum of a list of reals, first element as the accumulator
(`numpy.min` over a non-empty flattened axis pair; `0` on the empty list,
which never occurs since a rectangle has `2*D ≥ 2` faces). -/
noncomputable def minListR : List ℝ → ℝ
  | [] => 0
  | x :: xs => xs.foldl min x

/-- Per-dimension summand of `AAMBRVect.maxmindist`: the maximum of the two
squared differences `(left_min - right_max)^2` and `(left_max - right_min)^2`,
summed over the dimensions (`axis=-1`). -/
def facePairGap (fa fb : (Fin D → ℚ) × (Fin D → ℚ)) : ℚ :=
  ∑ d, max ((fa.1 d - fb.2 d) ^ 2) ((fa.2 d - fb.1 d) ^ 2)

/-- `AAMBRVect.maxmindist`: for each pair of faces (one face of `self[m]`,
one of `other[k]`), take `sqrt` of the summed per-dimension maximum of
squares, then minimise over the two face axes (`.min(axis=(-2,-1))`). -/
noncomputable def maxmindist (a : AAMBRVect M D) (b : AAMBRVect K D)
    (m : Fin M) (k : Fin K) : ℝ :=
  minListR ((List.finRange (2 * D)).flatMap fun i =>
    (List.finRange (2 * D)).map fun j =>
      Real.sqrt ((facePairGap (boundary a m i) (boundary b k j) : ℚ)))

/-- `AAMBRVect.bound_dist`: the fused single pass, returning the pair of
entrywise functions `(MINDIST, per-dim-max distance)` computed from the one
stacked `_dist_by_dims` array. -/
noncomputable def bound_dist (a : AAMBRVect M D) (b : AAMBRVect K D) :
    (Fin M → Fin K → ℝ) × (Fin M → Fin K → ℝ) :=
  (fun m k => Real.sqrt ((∑ d, (if intersectsByDims a b m k d then 0
      else min (distByDims a b m k 0 d) (distByDims a b m k 1 d)) ^ 2 : ℚ)),
   fun m k => Real.sqrt ((∑ d,
      (max (distByDims a b m k 0 d) (distByDims a b m k 1 d)) ^ 2 : ℚ)))

/-- Modelled from the spec's words for claim C1: the claimed value of
`maxmindist`, namely `sqrt(Σ_d g_d²)` with
`g_d = max(|A.mins - B.maxs|, |A.maxs - B.mins|)` taken on the whole
rectangles (not on their faces). -/
noncomputable def maxmindistSpecFormula (a : AAMBRVect M D) (b : AAMBRVect K D)
    (m : Fin M) (k : Fin K) : ℝ :=
  Real.sqrt ((∑ d, (max |a.mins m d - b.maxs k d| |a.maxs m d - b.mins k d|) ^ 2 : ℚ))

/-- C3: `A.intersects(B)[m,k]` holds iff in every dimension the strict
inequalities `A.mins < B.maxs` and `A.maxs > B.mins` hold; in particular
rectangles touching only on a shared boundary do not intersect at the
envelope level. -/
theorem intersects_iff_strict (a : AAMBRVect M D) (b : AAMBRVect K D) :
    (∀ m k, intersects a b m k = true ↔
      ∀ d, a.mins m d < b.maxs k d ∧ a.maxs m d > b.mins k d) ∧
    (∀ m k, (∃ d, a.mins m d = b.maxs k d ∨ a.maxs m d = b.mins k d) →
      intersects a b m k = false) := by
  constructor
  · intro m k
    simp only [intersects, List.all_eq_true, intersectsByDims, Bool.and_eq_true,
      decide_eq_true_eq]
    constructor
    · intro h d
      exact h d (List.mem_finRange d)
    · intro h d _
      exact h d
  · intro m k ⟨d, hd⟩
    rw [Bool.eq_false_iff]
    intro hall
    simp only [intersects, List.all_eq_true, intersectsByDims, Bool.and_eq_true,
      decide_eq_true_eq] at hall
    obtain ⟨h1, h2⟩ := hall d (List.mem_finRange d)
    rcases hd with h | h
    · exact absurd h1 (by rw [h]; exact lt_irrefl _)
    · exact absurd h2 (by rw [h]; exact lt_irrefl _)

/-- Batch `A` for the concrete evaluations: the unit square `[0,1]²`. -/
def A1 : AAMBRVect 1 2 := ⟨fun _ _ => 0, fun _ _ => 1⟩

/-- Batch `B` for the concrete evaluations: the square `[2,3]²`. -/
def B1 : AAMBRVect 1 2 := ⟨fun _ _ => 2, fun _ _ => 3⟩

/-- Batch touching `A1` only on the shared edge `x = 1`. -/
def Btouch : AAMBRVect 1 2 := ⟨fun _ d => if d = 0 then 1 else 0, fun _ _ => 2⟩

/-- Witness for C3 at a concrete input: `[0,1]²` and `[1,2]×[0,2]` touch on
the line `x = 1` and do not intersect at the envelope level. -/
theorem intersects_iff_strict_witness :
    intersects A1 Btouch 0 0 = false :=
  (intersects_iff_strict A1 Btouch).2 0 0 ⟨0, Or.inr (by decide)⟩

/-- Per-dimension gap identity behind claim C4: on envelopes whose `mins`
do not exceed their `maxs`, the code's per-dimension value (minimum of the
two absolute differences, zeroed on strict overlap) is the clamped signed
gap `max(0, A.mins - B.maxs, B.mins - A.maxs)`. -/
theorem gap_eq (am ax bm bx : ℚ) (h1 : am ≤ ax) (h2 : bm ≤ bx) :
    (if am < bx ∧ bm < ax then (0 : ℚ) else min |am - bx| |ax - bm|) =
      max 0 (max (am - bx) (bm - ax)) := by
  by_cases h : am < bx ∧ bm < ax
  · rw [if_pos h]
    symm
    rw [max_eq_left]
    apply max_le <;> linarith [h.1, h.2]
  · rw [if_neg h]
    rcases not_and_or.mp h with h' | h'
    · have hxa : bx ≤ am := le_of_not_lt h'
      rw [abs_of_nonneg (by linarith), abs_of_nonneg (by linarith),
        min_eq_left (by linarith),
        max_eq_left (show bm - ax ≤ am - bx by linarith),
        max_eq_right (show (0:ℚ) ≤ am - bx by linarith)]
    · have hab : ax ≤ bm := le_of_not_lt h'
      rw [abs_of_nonpos (by linarith), abs_of_nonpos (by linarith),
        neg_sub, neg_sub, min_eq_right (by linarith),
        max_eq_right (show am - bx ≤ bm - ax by linarith),
        max_eq_right (show (0:ℚ) ≤ bm - ax by linarith)]

/-- C4: on well-formed envelopes (`mins ≤ maxs` per dimension),
`A.distance(B)[m,k]` is `sqrt(Σ_d g_d²)` with
`g_d = max(0, A.mins - B.maxs, B.mins - A.maxs)`, and wherever
`A.intersects(B)[m,k]` holds the distance is `0`. -/
theorem distance_eq_mindist (a : AAMBRVect M D) (b : AAMBRVect K D)
    (ha : ∀ m d, a.mins m d ≤ a.maxs m d)
    (hb : ∀ k d, b.mins k d ≤ b.maxs k d) :
    ∀ m k, distance a b m k =
        Real.sqrt ((∑ d,
          (max 0 (max (a.mins m d - b.maxs k d) (b.mins k d - a.maxs m d))) ^ 2 : ℚ)) ∧
      (intersects a b m k = true → distance a b m k = 0) := by
  intro m k
  have hsum : (∑ d, (if intersectsByDims a b m k d then (0:ℚ)
        else min (distByDims a b m k 0 d) (distByDims a b m k 1 d)) ^ 2) =
      (∑ d, (max 0 (max (a.mins m d - b.maxs k d) (b.mins k d - a.maxs m d))) ^ 2 : ℚ) := by
    apply Finset.sum_congr rfl
    intro d _
    congr 1
    have hiff : (intersectsByDims a b m k d = true) ↔
        (a.mins m d < b.maxs k d ∧ b.mins k d < a.maxs m d) := by
      simp only [intersectsByDims, Bool.and_eq_true, decide_eq_true_eq, gt_iff_lt]
    have hstep : (if intersectsByDims a b m k d then (0:ℚ)
        else min (distByDims a b m k 0 d) (distByDims a b m k 1 d)) =
        (if a.mins m d < b.maxs k d ∧ b.mins k d < a.maxs m d then (0:ℚ)
        else min |a.mins m d - b.maxs k d| |a.maxs m d - b.mins k d|) := by
      by_cases hc : a.mins m d < b.maxs k d ∧ b.mins k d < a.maxs m d
      · rw [if_pos (hiff.mpr hc), if_pos hc]
      · rw [if_neg (fun hh => hc (hiff.mp hh)), if_neg hc]
        norm_num [distByDims]
    rw [hstep]
    exact gap_eq _ _ _ _ (ha m d) (hb k d)
  refine ⟨by rw [distance, hsum], ?_⟩
  intro hint
  have hall : ∀ d : Fin D, intersectsByDims a b m k d = true := by
    intro d
    have := (List.all_eq_true.mp hint) d (List.mem_finRange d)
    exact this
  rw [distance]
  have : (∑ d, (if intersectsByDims a b m k d then (0:ℚ)
      else min (distByDims a b m k 0 d) (distByDims a b m k 1 d)) ^ 2) = (0 : ℚ) := by
    apply Finset.sum_eq_zero
    intro d _
    rw [if_pos (hall d)]
    norm_num
  rw [this]
  simp [Real.sqrt_zero]

/-- Witness for C4: concrete disjoint squares `[0,1]²` and `[2,3]²`. -/
theorem distance_eq_mindist_witness :
    (∀ m d, A1.mins m d ≤ A1.maxs m d) ∧ (∀ k d, B1.mins k d ≤ B1.maxs k d) ∧
    (distance A1 B1 0 0 =
        Real.sqrt ((∑ d,
          (max 0 (max (A1.mins 0 d - B1.maxs 0 d) (B1.mins 0 d - A1.maxs 0 d))) ^ 2 : ℚ)) ∧
      (intersects A1 B1 0 0 = true → distance A1 B1 0 0 = 0)) :=
  ⟨by decide, by decide,
    distance_eq_mindist A1 B1 (by decide) (by decide) 0 0⟩

theorem foldl_min_le_init : ∀ (l : List ℝ) (b : ℝ), l.foldl min b ≤ b := by
  intro l
  induction l with
  | nil => intro b; exact le_refl b
  | cons a l ih =>
    intro b
    calc (a :: l).foldl min b = l.foldl min (min b a) := rfl
    _ ≤ min b a := ih (min b a)
    _ ≤ b := min_le_left _ _

theorem foldl_min_le_mem : ∀ (l : List ℝ) (b x : ℝ), x ∈ l → l.foldl min b ≤ x := by
  intro l
  induction l with
  | nil => intro b x hx; cases hx
  | cons a l ih =>
    intro b x hx
    rcases List.mem_cons.mp hx with h | h
    · subst h
      calc (x :: l).foldl min b = l.foldl min (min b x) := rfl
      _ ≤ min b x := foldl_min_le_init l (min b x)
      _ ≤ x := min_le_right _ _
    · exact ih (min b a) x h

theorem minListR_le_of_mem {l : List ℝ} {x : ℝ} (h : x ∈ l) : minListR l ≤ x := by
  cases l with
  | nil => cases h
  | cons y ys =>
    rcases List.mem_cons.mp h with h' | h'
    · subst h'
      exact foldl_min_le_init ys x
    · exact foldl_min_le_mem ys y x h'

theorem max_sq_abs (x y : ℚ) : max (x ^ 2) (y ^ 2) = (max |x| |y|) ^ 2 := by
  rcases le_total |x| |y| with h | h
  · rw [max_eq_right h, max_eq_right]
    · exact (sq_abs y).symm
    · calc x ^ 2 = |x| ^ 2 := (sq_abs x).symm
      _ ≤ |y| ^ 2 := pow_le_pow_left₀ (abs_nonneg x) h 2
      _ = y ^ 2 := sq_abs y
  · rw [max_eq_left h, max_eq_left]
    · exact (sq_abs x).symm
    · calc y ^ 2 = |y| ^ 2 := (sq_abs y).symm
      _ ≤ |x| ^ 2 := pow_le_pow_left₀ (abs_nonneg y) h 2
      _ = x ^ 2 := sq_abs x

/-- C1 (amended): `A.maxmindist(B)[m,k]` is the minimum over pairs of faces
(one face of `A[m]`, one face of `B[k]`) of
`sqrt(Σ_d max(|f.mins - g.maxs|, |f.maxs - g.mins|)²)`. -/
theorem maxmindist_eq_min_face_gaps (a : AAMBRVect M D) (b : AAMBRVect K D)
    (m : Fin M) (k : Fin K) :
    maxmindist a b m k =
      minListR ((List.finRange (2 * D)).flatMap fun i =>
        (List.finRange (2 * D)).map fun j =>
          Real.sqrt ((∑ d, (max |(boundary a m i).1 d - (boundary b k j).2 d|
            |(boundary a m i).2 d - (boundary b k j).1 d|) ^ 2 : ℚ))) := by
  have hq : ∀ i j : Fin (2 * D),
      (facePairGap (boundary a m i) (boundary b k j) : ℚ) =
      ∑ d, (max |(boundary a m i).1 d - (boundary b k j).2 d|
        |(boundary a m i).2 d - (boundary b k j).1 d|) ^ 2 := by
    intro i j
    unfold facePairGap
    apply Finset.sum_congr rfl
    intro d _
    exact max_sq_abs _ _
  unfold maxmindist
  simp only [hq]

/-- Index of the face `x = maxx` of a 2-D rectangle. -/
def faceHighX : Fin (2 * 2) := ⟨2, by norm_num⟩

/-- Index of the face `y = miny` of a 2-D rectangle. -/
def faceLowY : Fin (2 * 2) := ⟨1, by norm_num⟩

theorem facePairGap_A1_B1 :
    facePairGap (boundary A1 0 faceHighX) (boundary B1 0 faceLowY) = 8 := by
  norm_num [facePairGap, boundary, A1, B1, faceHighX, faceLowY,
    Fin.sum_univ_two, Function.update, max_def, Fin.ext_iff]

theorem maxmindist_A1_B1_le : maxmindist A1 B1 0 0 ≤ Real.sqrt ((8 : ℚ)) := by
  have hmem : Real.sqrt ((facePairGap (boundary A1 0 faceHighX)
      (boundary B1 0 faceLowY) : ℚ)) ∈
      (List.finRange (2 * 2)).flatMap (fun i => (List.finRange (2 * 2)).map fun j =>
        Real.sqrt ((facePairGap (boundary A1 0 i) (boundary B1 0 j) : ℚ))) := by
    apply List.mem_flatMap.mpr
    exact ⟨faceHighX, List.mem_finRange _,
      List.mem_map.mpr ⟨faceLowY, List.mem_finRange _, rfl⟩⟩
  have h := minListR_le_of_mem hmem
  rw [facePairGap_A1_B1] at h
  exact h

theorem sqrt8_lt_sqrt18 : Real.sqrt ((8 : ℚ)) < Real.sqrt ((18 : ℚ)) := by
  apply Real.sqrt_lt_sqrt
  · norm_num
  · norm_num

/-- Counterexample to C1 as stated: on the unit square and `[2,3]²`, the code's
`maxmindist` (at most `√8`, via the pair of facing edges) differs from the
claimed whole-rectangle formula (which evaluates to `√18`). -/
theorem maxmindist_ne_spec_formula :
    maxmindist A1 B1 0 0 ≠ maxmindistSpecFormula A1 B1 0 0 := by
  have h18 : maxmindistSpecFormula A1 B1 0 0 = Real.sqrt ((18 : ℚ)) := by
    unfold maxmindistSpecFormula
    rw [show (∑ d, (max |A1.mins 0 d - B1.maxs 0 d| |A1.maxs 0 d - B1.mins 0 d|) ^ 2 : ℚ)
      = 18 from by norm_num [A1, B1, Fin.sum_univ_two, max_def]]
  have hlt : maxmindist A1 B1 0 0 < maxmindistSpecFormula A1 B1 0 0 := by
    rw [h18]
    exact lt_of_le_of_lt maxmindist_A1_B1_le sqrt8_lt_sqrt18
  exact ne_of_lt hlt

/-- C5 (amended): `A.bound_dist(B)` returns exactly the pair
`(A.distance(B), A.maxdist(B))` computed by the two separate methods. -/
theorem bound_dist_eq_distance_maxdist (a : AAMBRVect M D) (b : AAMBRVect K D) :
    bound_dist a b = (fun m k => distance a b m k, fun m k => maxdist a b m k) :=
  rfl

/-- Counterexample to C5 as stated: the second component of `bound_dist` is
`maxdist` (`√18` on the concrete squares), not `maxmindist` (at most `√8`). -/
theorem bound_dist_snd_ne_maxmindist :
    (bound_dist A1 B1).2 0 0 ≠ maxmindist A1 B1 0 0 := by
  have h18 : (bound_dist A1 B1).2 0 0 = Real.sqrt ((18 : ℚ)) := by
    show Real.sqrt _ = _
    rw [show (∑ d, (max (distByDims A1 B1 0 0 0 d) (distByDims A1 B1 0 0 1 d)) ^ 2 : ℚ)
      = 18 from by norm_num [distByDims, A1, B1, Fin.sum_univ_two, max_def]]
  have hlt : maxmindist A1 B1 0 0 < (bound_dist A1 B1).2 0 0 := by
    rw [h18]
    exact lt_of_le_of_lt maxmindist_A1_B1_le sqrt8_lt_sqrt18
  exact (ne_of_lt hlt).symm

/-- Coercion of a rational value into the bound domain `ℚ ∪ {∞}`. -/
def qtop (q : ℚ) : WithTop ℚ := (q : WithTop ℚ)

open List in
theorem insertionSort_append_singleton {α : Type} [LinearOrder α] (l : List α) (y : α) :
    (l ++ [y]).insertionSort (· ≤ ·) =
      List.orderedInsert (· ≤ ·) y (l.insertionSort (· ≤ ·)) := by
  have hp : (l ++ [y]).insertionSort (· ≤ ·) ~
      List.orderedInsert (· ≤ ·) y (l.insertionSort (· ≤ ·)) := by
    calc (l ++ [y]).insertionSort (· ≤ ·) ~ l ++ [y] := List.perm_insertionSort _ _
    _ ~ y :: l := List.perm_append_comm
    _ ~ y :: l.insertionSort (· ≤ ·) := (List.perm_insertionSort _ _).symm.cons y
    _ ~ List.orderedInsert (· ≤ ·) y (l.insertionSort (· ≤ ·)) :=
      (List.perm_orderedInsert _ y _).symm
  have h1 : List.Sorted (· ≤ ·) ((l ++ [y]).insertionSort (· ≤ ·)) :=
    List.sorted_insertionSort _ _
  have h2 : List.Sorted (· ≤ ·)
      (List.orderedInsert (· ≤ ·) y (l.insertionSort (· ≤ ·))) :=
    List.Sorted.orderedInsert y _ (List.sorted_insertionSort _ _)
  exact List.eq_of_perm_of_sorted hp h1 h2

theorem take_orderedInsert_take {α : Type} [LinearOrder α] (y : α) :
    ∀ (s : List α) (k : ℕ),
      (List.orderedInsert (· ≤ ·) y (s.take k)).take k =
        (List.orderedInsert (· ≤ ·) y s).take k := by
  intro s
  induction s with
  | nil => intro k; rw [List.take_nil]
  | cons b s ih =>
    intro k
    cases k with
    | zero => simp
    | succ k =>
      rw [List.take_succ_cons]
      by_cases hyb : y ≤ b
      · simp only [List.orderedInsert, if_pos hyb]
        rw [List.take_succ_cons, List.take_succ_cons]
        cases k with
        | zero => simp
        | succ k' =>
          rw [List.take_succ_cons, List.take_succ_cons, List.take_take,
            min_eq_left (Nat.le_succ k')]
      · simp only [List.orderedInsert, if_neg hyb]
        rw [List.take_succ_cons, List.take_succ_cons, ih k]

/-- Ascending sort then keep the `k` smallest: the common mathematical content
of both branches of `knn_best` in `BVH.nearest` (`numpy.sort` when the row is
short, `partition`-then-`sort` of the `k` smallest otherwise). -/
def kminList {α : Type} [LinearOrder α] (k : ℕ) (l : List α) : List α :=
  (l.insertionSort (· ≤ ·)).take k

theorem sorted_kminList {α : Type} [LinearOrder α] (k : ℕ) (l : List α) :
    List.Sorted (· ≤ ·) (kminList k l) :=
  (List.sorted_insertionSort _ _).sublist (List.take_sublist k _)

theorem kminList_idem {α : Type} [LinearOrder α] (k : ℕ) (l : List α) :
    kminList k (kminList k l) = kminList k l := by
  show ((kminList k l).insertionSort (· ≤ ·)).take k = kminList k l
  rw [(sorted_kminList k l).insertionSort_eq]
  show ((l.insertionSort (· ≤ ·)).take k).take k = _
  rw [List.take_take, min_self]
  rfl

theorem kminList_append_singleton {α : Type} [LinearOrder α] (k : ℕ) (l : List α) (y : α) :
    kminList k (kminList k l ++ [y]) = kminList k (l ++ [y]) := by
  show ((kminList k l ++ [y]).insertionSort (· ≤ ·)).take k
      = ((l ++ [y]).insertionSort (· ≤ ·)).take k
  rw [insertionSort_append_singleton, insertionSort_append_singleton,
    (sorted_kminList k l).insertionSort_eq]
  exact take_orderedInsert_take y _ k

theorem kminList_append {α : Type} [LinearOrder α] (k : ℕ) :
    ∀ (m l : List α), kminList k (kminList k l ++ m) = kminList k (l ++ m) := by
  intro m
  induction m with
  | nil => intro l; rw [List.append_nil, List.append_nil, kminList_idem]
  | cons y m ih =>
    intro l
    calc kminList k (kminList k l ++ y :: m)
        = kminList k ((kminList k l ++ [y]) ++ m) := by rw [← List.append_cons]
      _ = kminList k (kminList k (kminList k l ++ [y]) ++ m) := (ih _).symm
      _ = kminList k (kminList k (l ++ [y]) ++ m) := by rw [kminList_append_singleton]
      _ = kminList k ((l ++ [y]) ++ m) := ih _
      _ = kminList k (l ++ y :: m) := by rw [← List.append_cons]

/-- `knn_best` in `BVH.nearest`: keep the `k` smallest upper bounds, sorted
ascending (bounds live in `ℚ ∪ {∞}`, i.e. `WithTop ℚ`, modelling the
`numpy.inf` initialisation). -/
def knn_best (k : ℕ) (l : List (WithTop ℚ)) : List (WithTop ℚ) :=
  kminList k l

/-- `bounds[idx].max(axis=1)` on one row of the per-query bounds matrix. -/
def rowMax : List (WithTop ℚ) → WithTop ℚ
  | [] => ⊤
  | x :: xs => xs.foldl max x

/-- The per-query bounds row maintained by the `search_func` of `BVH.nearest`
after the given levels: starting from a row of `knn` infinities, each level
replaces the row by the `k` smallest of the old row together with the
MAXMINDIST values of that level's nodes (`bounds[idx, :] =
knn_best(concatenate([bounds[idx], upper_bounds]))`). -/
def nearestBounds (k : ℕ) (rows : List (List ℚ)) : List (WithTop ℚ) :=
  rows.foldl (fun b row => knn_best k (b ++ row.map qtop))
    (List.replicate k ⊤)

/-- The survival test of `BVH.nearest` for one query and one node: after the
bounds update for the current level (whose upper-bound row is the last entry
of `rows`), the node survives iff its lower bound is at most
`bounds[idx].max(axis=1)`. -/
def nearestSurvives (k : ℕ) (rows : List (List ℚ)) (lb : ℚ) : Bool :=
  decide ((lb : WithTop ℚ) ≤ rowMax (nearestBounds k rows))

/-- Modelled from the spec's words for claim C2: the k-th smallest MAXMINDIST
value seen so far, infinity while fewer than `k` values have been seen. -/
def kthSmallestSeen (k : ℕ) (seen : List ℚ) : WithTop ℚ :=
  match (seen.insertionSort (· ≤ ·)).drop (k - 1) with
  | [] => ⊤
  | x :: _ => (x : WithTop ℚ)

theorem le_foldl_max (l : List (WithTop ℚ)) :
    ∀ b, b ≤ l.foldl max b ∧ ∀ a ∈ l, a ≤ l.foldl max b := by
  induction l with
  | nil => intro b; exact ⟨le_refl b, by intro a ha; cases ha⟩
  | cons c l ih =>
    intro b
    refine ⟨le_trans (le_max_left b c) (ih (max b c)).1, ?_⟩
    intro a ha
    rcases List.mem_cons.mp ha with h | h
    · subst h
      exact le_trans (le_max_right b a) (ih (max b a)).1
    · exact (ih (max b c)).2 a h

theorem foldl_max_mem (l : List (WithTop ℚ)) :
    ∀ b, l.foldl max b = b ∨ l.foldl max b ∈ l := by
  induction l with
  | nil => intro b; exact Or.inl rfl
  | cons c l ih =>
    intro b
    rcases ih (max b c) with h | h
    · rcases max_choice b c with h' | h'
      · exact Or.inl (by rw [List.foldl_cons, h, h'])
      · exact Or.inr (by rw [List.foldl_cons, h, h']; exact List.mem_cons_self c l)
    · exact Or.inr (List.mem_cons_of_mem c h)

theorem rowMax_eq_of_all_le {l : List (WithTop ℚ)} {x : WithTop ℚ}
    (hx : x ∈ l) (hall : ∀ a ∈ l, a ≤ x) : rowMax l = x := by
  cases l with
  | nil => cases hx
  | cons y ys =>
    show ys.foldl max y = x
    apply le_antisymm
    · rcases foldl_max_mem ys y with h | h
      · rw [h]; exact hall y (List.mem_cons_self y ys)
      · exact hall _ (List.mem_cons_of_mem y h)
    · rcases List.mem_cons.mp hx with h | h
      · subst h; exact (le_foldl_max ys x).1
      · exact (le_foldl_max ys y).2 x h

theorem rowMax_cons_of_le (x w₀ : WithTop ℚ) (w' : List (WithTop ℚ)) (h : x ≤ w₀) :
    rowMax (x :: w₀ :: w') = rowMax (w₀ :: w') := by
  show (w₀ :: w').foldl max x = w'.foldl max w₀
  rw [List.foldl_cons, max_eq_right h]

theorem rowMax_take_sorted :
    ∀ (u : List (WithTop ℚ)) (k : ℕ), 1 ≤ k → k ≤ u.length →
      List.Sorted (· ≤ ·) u → rowMax (u.take k) = (u.drop (k - 1)).headD ⊤ := by
  intro u
  induction u with
  | nil =>
    intro k h1 h2 _
    simp at h2
    omega
  | cons x v ih =>
    intro k h1 h2 hs
    cases k with
    | zero => omega
    | succ k' =>
      cases k' with
      | zero =>
        rw [List.take_succ_cons, List.take_zero]
        simp [rowMax]
      | succ k'' =>
        have hvlen : k'' + 1 ≤ v.length := by
          simp [List.length_cons] at h2
          omega
        cases v with
        | nil => simp at hvlen
        | cons v₀ v' =>
          have hx : x ≤ v₀ :=
            List.rel_of_sorted_cons hs v₀ (List.mem_cons_self v₀ v')
          rw [List.take_succ_cons]
          have htake : (v₀ :: v').take (k'' + 1) = v₀ :: v'.take k'' :=
            List.take_succ_cons
          rw [htake, rowMax_cons_of_le x v₀ _ hx, ← htake,
            ih (k'' + 1) (by omega) hvlen hs.of_cons]
          rfl

open List in
theorem sort_pad (k : ℕ) (s : List ℚ) :
    (List.replicate k (⊤ : WithTop ℚ) ++
        s.map qtop).insertionSort (· ≤ ·) =
      (s.insertionSort (· ≤ ·)).map qtop ++
        List.replicate k ⊤ := by
  have hp : (List.replicate k (⊤ : WithTop ℚ) ++
        s.map qtop).insertionSort (· ≤ ·) ~
      (s.insertionSort (· ≤ ·)).map qtop ++ List.replicate k ⊤ := by
    calc (List.replicate k (⊤ : WithTop ℚ) ++
          s.map qtop).insertionSort (· ≤ ·)
        ~ List.replicate k ⊤ ++ s.map qtop :=
          List.perm_insertionSort _ _
      _ ~ s.map qtop ++ List.replicate k ⊤ :=
          List.perm_append_comm
      _ ~ (s.insertionSort (· ≤ ·)).map qtop ++
            List.replicate k ⊤ :=
          ((List.perm_insertionSort _ s).symm.map _).append_right _
  have h1 : List.Sorted (· ≤ ·) ((List.replicate k (⊤ : WithTop ℚ) ++
      s.map qtop).insertionSort (· ≤ ·)) :=
    List.sorted_insertionSort _ _
  have h2 : List.Sorted (· ≤ ·)
      ((s.insertionSort (· ≤ ·)).map qtop ++ List.replicate k ⊤) := by
    rw [List.Sorted, List.pairwise_append]
    refine ⟨?_, ?_, ?_⟩
    · exact List.Pairwise.map qtop (fun a b h => WithTop.coe_le_coe.mpr h)
        (List.sorted_insertionSort _ s)
    · exact (List.pairwise_replicate (α := WithTop ℚ)).mpr (Or.inr (le_refl ⊤))
    · intro a _ b hb
      rw [List.eq_of_mem_replicate hb]
      exact le_top
  exact List.eq_of_perm_of_sorted hp h1 h2

theorem rowMax_kminList_pad (k : ℕ) (hk : 1 ≤ k) (s : List ℚ) :
    rowMax (kminList k (List.replicate k (⊤ : WithTop ℚ) ++
        s.map qtop)) = kthSmallestSeen k s := by
  show rowMax ((List.insertionSort (· ≤ ·) _).take k) = _
  rw [sort_pad]
  have hs'len : (s.insertionSort (· ≤ ·)).length = s.length :=
    List.length_insertionSort _ s
  have hUsorted : List.Sorted (· ≤ ·)
      ((s.insertionSort (· ≤ ·)).map qtop ++
        List.replicate k ⊤) := by
    rw [← sort_pad]
    exact List.sorted_insertionSort _ _
  have hUlen : k ≤ ((s.insertionSort (· ≤ ·)).map qtop ++
      List.replicate k ⊤).length := by
    rw [List.length_append, List.length_replicate]
    omega
  rw [rowMax_take_sorted _ k hk hUlen hUsorted]
  by_cases h : k ≤ s.length
  · obtain ⟨x, rest, hx⟩ : ∃ x rest,
        (s.insertionSort (· ≤ ·)).drop (k - 1) = x :: rest := by
      cases hdrop : (s.insertionSort (· ≤ ·)).drop (k - 1) with
      | nil =>
        exfalso
        have := List.length_drop (k - 1) (s.insertionSort (· ≤ ·))
        rw [hdrop] at this
        simp only [List.length_nil] at this
        omega
      | cons x rest => exact ⟨x, rest, rfl⟩
    have hdropU :
        ((s.insertionSort (· ≤ ·)).map qtop ++
          List.replicate k ⊤).drop (k - 1) =
        (x : WithTop ℚ) :: (rest.map qtop ++
          List.replicate k ⊤) := by
      rw [List.drop_append_eq_append_drop, ← List.map_drop, hx,
        List.length_map, hs'len,
        show k - 1 - s.length = 0 from by omega, List.drop_zero]
      rfl
    rw [hdropU, List.headD_cons]
    unfold kthSmallestSeen
    rw [hx]
  · push_neg at h
    have hdropU :
        ((s.insertionSort (· ≤ ·)).map qtop ++
          List.replicate k ⊤).drop (k - 1) =
        List.replicate (s.length + 1) (⊤ : WithTop ℚ) := by
      rw [List.drop_append_eq_append_drop,
        List.drop_eq_nil_of_le (by rw [List.length_map, hs'len]; omega),
        List.drop_replicate, List.length_map, hs'len,
        show k - (k - 1 - s.length) = s.length + 1 from by omega]
      rfl
    rw [hdropU, List.replicate_succ, List.headD_cons]
    unfold kthSmallestSeen
    rw [List.drop_eq_nil_of_le (by rw [hs'len]; omega)]

theorem nearestBounds_foldl (k : ℕ) :
    ∀ (rows : List (List ℚ)) (acc : List (WithTop ℚ)),
      rows.foldl (fun b row => knn_best k (b ++ row.map qtop))
          (kminList k acc) =
        kminList k (acc ++ (rows.flatten).map qtop) := by
  intro rows
  induction rows with
  | nil =>
    intro acc
    simp only [List.foldl_nil, List.flatten_nil, List.map_nil, List.append_nil]
  | cons r rs ih =>
    intro acc
    rw [List.foldl_cons]
    show rs.foldl _ (kminList k (kminList k acc ++ r.map qtop)) = _
    rw [kminList_append, ih (acc ++ r.map qtop),
      List.flatten_cons, List.map_append, List.append_assoc]

/-- C2: in the `search_func` of `BVH.nearest` with `knn = k ≥ 1`, after the
per-level bounds updates for any sequence of levels (`rows` lists the
MAXMINDIST values the query has seen at each level, the current level last),
a node survives for the query iff its MINDIST lower bound `lb` is at most the
k-th smallest MAXMINDIST value seen so far across all nodes evaluated for the
query (infinity while fewer than `k` values have been seen). -/
theorem nearest_survives_iff (k : ℕ) (hk : 1 ≤ k) (rows : List (List ℚ)) (lb : ℚ) :
    nearestSurvives k rows lb = true ↔
      (lb : WithTop ℚ) ≤ kthSmallestSeen k rows.flatten := by
  unfold nearestSurvives
  rw [decide_eq_true_eq]
  have hinit : (List.replicate k (⊤ : WithTop ℚ)) =
      kminList k (List.replicate k ⊤) := by
    show _ = (List.insertionSort (· ≤ ·) _).take k
    rw [List.Sorted.insertionSort_eq
        ((List.pairwise_replicate (α := WithTop ℚ)).mpr (Or.inr (le_refl ⊤))),
      List.take_replicate, min_self]
  have hbounds : nearestBounds k rows =
      kminList k (List.replicate k ⊤ ++
        (rows.flatten).map qtop) := by
    unfold nearestBounds
    rw [hinit, nearestBounds_foldl]
    exact (kminList_append k _ _).symm
  rw [hbounds, rowMax_kminList_pad k hk rows.flatten]

/-- Witness for C2 at a concrete input: `k = 2`, bounds seen `[3,1]` then `[5]`,
lower bound `2`; the k-th smallest seen is `3` and the node survives. -/
theorem nearest_survives_iff_witness :
    1 ≤ 2 ∧ (nearestSurvives 2 [[3, 1], [5]] 2 = true ↔
      ((2 : ℚ) : WithTop ℚ) ≤ kthSmallestSeen 2 ([[3, 1], [5]] : List (List ℚ)).flatten) :=
  ⟨by decide, nearest_survives_iff 2 (by decide) [[3, 1], [5]] 2⟩

/-! ## The Sort-Tile-Recurse packer (`src/spindex/str.py`)

Masked numpy integer matrices are modelled as rectangular lists of cells
`(value, mask)`, `mask = true` meaning masked out with fill data `0`.
numpy behaviours modelled faithfully: `compressed()` lists unmasked data in
row-major order; indexing a *plain* array by a masked integer array ignores
the mask and uses the underlying fill data; assigning a plain block into a
masked array unmasks the assigned cells. -/

/-- One cell of a masked integer matrix: stored value and mask bit. -/
abbrev MCell : Type := ℕ × Bool

/-- A masked integer matrix, row-major. -/
abbrev MMat : Type := List (List MCell)

/-- `numpy.ma.compressed` on one row: unmasked data values in order. -/
def compressedRow (row : List MCell) : List ℕ :=
  (row.filter fun c => !c.2).map fun c => c.1

/-- `row.count()`: the number of unmasked entries. -/
def rowCount (row : List MCell) : ℕ := (compressedRow row).length

/-- numpy float minimum of two values (exact-rational model). -/
def qmin (a b : ℚ) : ℚ := if a ≤ b then a else b

/-- numpy float maximum of two values (exact-rational model). -/
def qmax (a b : ℚ) : ℚ := if a ≤ b then b else a

/-- `numpy.argsort` on a list of keys: positions sorted by key value
(stable on ties; any tie order satisfies the properties proved here). -/
def argsortQ (xs : List ℚ) : List ℕ :=
  (List.range xs.length).insertionSort fun i j =>
    xs.getD i 0 < xs.getD j 0 ∨ (xs.getD i 0 = xs.getD j 0 ∧ i ≤ j)

/-- `reshape(rows, width)` of a plain 1-D array into a list of rows
(callers guarantee `l.length = rows * width`). -/
def chunkRows : List ℕ → ℕ → ℕ → List (List ℕ)
  | _, 0, _ => []
  | l, rows + 1, width => l.take width :: chunkRows (l.drop width) rows width

/-- `_concat`: preallocate a fully masked matrix as wide as the widest block,
then assign each plain block; assigned cells become unmasked, the rest stay
masked with fill value `0`.  `widths` are the per-block row widths
(`shapes[:, 1]`). -/
def _concat (blocks : List (List (List ℕ))) (widths : List ℕ) : MMat :=
  let w := widths.foldr max 0
  blocks.flatMap fun b => b.map fun row =>
    (row.map fun v => (v, false)) ++ List.replicate (w - row.length) ((0 : ℕ), true)

/-- `sort_tile_one`: sort positions by the key, then split into `nbTiles`
contiguous groups; with `q, r = divmod(n, nbTiles)`, the first `r` groups
have width `q+1` and the rest width `q` (a single unmasked `reshape` when
`r = 0`). -/
def sort_tile_one (xs : List ℚ) (nbTiles : ℕ) : MMat :=
  let argx := argsortQ xs
  let q := xs.length / nbTiles
  let r := xs.length % nbTiles
  if r = 0 then
    (chunkRows argx nbTiles q).map fun row => row.map fun v => (v, false)
  else
    _concat [chunkRows (argx.take ((q + 1) * r)) r (q + 1),
             chunkRows (argx.drop ((q + 1) * r)) (nbTiles - r) q]
      [q + 1, q]

/-- The least `t` with `t^d * p ≥ n`: the exact value of the code's
`math.ceil((nobs / page_size) ** (1 / ndims))` for positive `p` and `d`
(float rounding aside, which the exact-real model resolves exactly). -/
def ceilRoot (d n p : ℕ) : ℕ :=
  ((List.range (n + 1)).find? fun t => decide (n ≤ t ^ d * p)).getD n

/-- `get_shape`: `(number of tiles, tile width)` when grouping `nobs`
observations along one of `ndims` coordinates with page size `p`. -/
def get_shape (p nobs ndims : ℕ) : ℕ × ℕ :=
  let t := ceilRoot ndims nobs p
  (t, (nobs + t - 1) / t)

/-- `sort_tile` on `d`-column coordinates (row-major, one row per
observation).  For `d ≥ 2`, each first-coordinate group recursively tiles
its remaining columns; the recursive result (indices into the group's
compressed position list `sc`) is re-indexed as `sc[inner]`.  numpy drops
the mask of the index array in this step, so masked slots contribute their
fill data `0`, i.e. `sc[0]`; the resulting block is plain and `_concat`
unmasks every cell of it. -/
def sort_tile (p : ℕ) : ℕ → List (List ℚ) → MMat
  | 0, coords =>
    sort_tile_one (coords.map fun row => row.getD 0 0) (get_shape p coords.length 0).1
  | 1, coords =>
    sort_tile_one (coords.map fun row => row.getD 0 0) (get_shape p coords.length 1).1
  | d + 2, coords =>
    let splits := sort_tile_one (coords.map fun row => row.getD 0 0)
      (get_shape p coords.length (d + 2)).1
    let blocks := splits.map fun s =>
      let sc := compressedRow s
      let inner := sort_tile p (d + 1) (sc.map fun i => (coords.getD i []).drop 1)
      inner.map fun irow => irow.map fun c => sc.getD c.1 0
    let widths := splits.map fun s => (get_shape p (rowCount s) (d + 1)).2
    _concat blocks widths

/-- Envelope batch in row-major list form for the packer: one row of `D`
coordinates per envelope in each of `mins` and `maxs`. -/
structure EnvL where
  mins : List (List ℚ)
  maxs : List (List ℚ)
deriving DecidableEq

/-- Number of envelopes in the batch (`len`). -/
def lenE (e : EnvL) : ℕ := e.mins.length

/-- Number of coordinate dimensions (`ndims`), read off the stored array. -/
def ndimsE (e : EnvL) : ℕ := (e.mins.headD []).length

/-- Componentwise minimum of two coordinate rows. -/
def vecMin (a b : List ℚ) : List ℚ := List.zipWith qmin a b

/-- Componentwise maximum of two coordinate rows. -/
def vecMax (a b : List ℚ) : List ℚ := List.zipWith qmax a b

/-- Componentwise minimum over a batch of rows (first row as accumulator). -/
def rowsMin : List (List ℚ) → List ℚ
  | [] => []
  | v :: vs => vs.foldl vecMin v

/-- Componentwise maximum over a batch of rows. -/
def rowsMax : List (List ℚ) → List ℚ
  | [] => []
  | v :: vs => vs.foldl vecMax v

/-- `AAMBRVect.mergeby`: per row of the index matrix, the unmasked entries
select envelopes; the merged envelope is the componentwise min of their
`mins` and max of their `maxs` (the re-applied mask excludes exactly the
masked cells, so fill data exposed by the indexing does not contribute). -/
def mergeby (e : EnvL) (indexes : MMat) : EnvL where
  mins := indexes.map fun row =>
    rowsMin ((compressedRow row).map fun i => e.mins.getD i [])
  maxs := indexes.map fun row =>
    rowsMax ((compressedRow row).map fun i => e.maxs.getD i [])

/-- `AAMBRVect.centers`: `0.5 * (mins + maxs)`, row-major. -/
def centers (e : EnvL) : List (List ℚ) :=
  List.zipWith (fun a b => List.zipWith (fun x y => (x + y) / 2) a b) e.mins e.maxs

/-- The array-based bounding volume hierarchy: envelopes and children index
matrices per level, top level first. -/
structure BVHL where
  envelopes : List EnvL
  children : List MMat
deriving DecidableEq

/-- `BVH.depth`. -/
def depthB (b : BVHL) : ℕ := b.envelopes.length

/-- `BVH.width`: number of nodes at the top level, `0` on an empty tree. -/
def widthB (b : BVHL) : ℕ :=
  match b.envelopes with
  | [] => 0
  | e :: _ => lenE e

/-- `len(BVH)`: number of leaves (size of the last level). -/
def lenB (b : BVHL) : ℕ := lenE (b.envelopes.getLastD ⟨[], []⟩)

/-- The `while` loop of `sort_tile_recurse`: while the current top level has
more than `max_top_size` nodes, tile its centers and merge.  The lists are
built top-first (the Python code appends and reverses once at the end);
`fuel` bounds the number of loop iterations and `none` models a loop that
does not finish within it. -/
def strLoop (p maxTop : ℕ) : ℕ → List EnvL → List MMat → Option BVHL
  | fuel, envel, children =>
    match envel with
    | [] => none
    | top :: _ =>
      if lenE top ≤ maxTop then some ⟨envel, children⟩
      else
        match fuel with
        | 0 => none
        | fuel + 1 =>
          let tiles := sort_tile p (ndimsE top) (centers top)
          strLoop p maxTop fuel (mergeby top tiles :: envel) (tiles :: children)

/-- `sort_tile_recurse`: leaves plus identity children column, then the
packing loop. -/
def sort_tile_recurse (egeoms : EnvL) (p maxTop fuel : ℕ) : Option BVHL :=
  strLoop p maxTop fuel [egeoms]
    [(List.range (lenE egeoms)).map fun i => [((i : ℕ), false)]]

/-- Five point envelopes with centers `(0,0), (1,10), (2,5), (3,7), (4,1)`:
the failing input for claim C6. -/
def pts5 : EnvL where
  mins := [[0, 0], [1, 10], [2, 5], [3, 7], [4, 1]]
  maxs := [[0, 0], [1, 10], [2, 5], [3, 7], [4, 1]]

/-- Two point envelopes, the non-terminating input for claim C9 at
`page_size = 1`. -/
def pts2 : EnvL where
  mins := [[0, 0], [1, 1]]
  maxs := [[0, 0], [1, 1]]

/-- C6 evaluation at the failing input: building over `pts5` with
`page_size = 2`, `max_top_size = 1` succeeds, but the leaf-level children
matrix lists index `0` twice (the ragged inner tiling's masked slot was
exposed as fill data `0` when numpy dropped the mask of the fancy index),
so the children rows do not partition the leaf indices. -/
theorem str_leaf_children_duplicate :
    (sort_tile_recurse pts5 2 1 5).map
        (fun b => ((b.children.getD 2 []).map compressedRow).flatten) =
      some [0, 2, 1, 0, 4, 3] ∧
    List.count 0 [0, 2, 1, 0, 4, 3] = 2 := by
  constructor
  · with_unfolding_all decide
  · decide

theorem strLoop_pts2_none : ∀ (fuel : ℕ) (envs : List EnvL) (chs : List MMat),
    strLoop 1 1 fuel (pts2 :: envs) chs = none := by
  have h2 : ¬ (lenE pts2 ≤ 1) := by decide
  have hfix : mergeby pts2 (sort_tile 1 (ndimsE pts2) (centers pts2)) = pts2 := by
    with_unfolding_all decide
  intro fuel
  induction fuel with
  | zero =>
    intro envs chs
    show (if lenE pts2 ≤ 1 then some ⟨pts2 :: envs, chs⟩ else none) = none
    rw [if_neg h2]
  | succ fuel ih =>
    intro envs chs
    show (if lenE pts2 ≤ 1 then some ⟨pts2 :: envs, chs⟩
      else strLoop 1 1 fuel
        (mergeby pts2 (sort_tile 1 (ndimsE pts2) (centers pts2)) :: pts2 :: envs)
        (sort_tile 1 (ndimsE pts2) (centers pts2) :: chs)) = none
    rw [if_neg h2, hfix]
    exact ih _ _

/-- Counterexample to C9 as stated: with `page_size = 1` and two distinct
point envelopes, every tile is a singleton, the merged level equals the input
level, and the packing loop never shrinks below `max_top_size = 1`: no amount
of fuel makes `sort_tile_recurse` return. -/
theorem str_p1_diverges :
    ¬ ∃ fuel b, sort_tile_recurse pts2 1 1 fuel = some b := by
  rintro ⟨fuel, b, hb⟩
  unfold sort_tile_recurse at hb
  rw [strLoop_pts2_none fuel [] _] at hb
  cases hb

/-! ### Envelope containment through the hierarchy (claim C7) -/

/-- The default (empty) envelope batch. -/
def E0 : EnvL := ⟨[], []⟩

theorem getD_map_lt {α β : Type} (f : α → β) {l : List α} {i : ℕ}
    (h : i < l.length) (d : β) (d' : α) :
    (l.map f).getD i d = f (l.getD i d') := by
  rw [List.getD_eq_getElem?_getD, List.getElem?_map, List.getD_eq_getElem?_getD,
    List.getElem?_eq_getElem h]
  simp

theorem qmin_le_left (a b : ℚ) : qmin a b ≤ a := by
  unfold qmin
  split
  · exact le_refl a
  · next h => exact le_of_not_le h

theorem qmin_le_right (a b : ℚ) : qmin a b ≤ b := by
  unfold qmin
  split
  · next h => exact h
  · exact le_refl b

theorem le_qmax_left (a b : ℚ) : a ≤ qmax a b := by
  unfold qmax
  split
  · next h => exact h
  · exact le_refl a

theorem le_qmax_right (a b : ℚ) : b ≤ qmax a b := by
  unfold qmax
  split
  · exact le_refl b
  · next h => exact le_of_not_le h

theorem vecMin_length (a b : List ℚ) : (vecMin a b).length = min a.length b.length := by
  simp [vecMin]

theorem vecMax_length (a b : List ℚ) : (vecMax a b).length = min a.length b.length := by
  simp [vecMax]

theorem vecMin_getD_le_left (a b : List ℚ) (d : ℕ) (h : d < (vecMin a b).length) :
    (vecMin a b).getD d 0 ≤ a.getD d 0 := by
  have ha : d < a.length := by
    rw [vecMin_length] at h
    omega
  have hb : d < b.length := by
    rw [vecMin_length] at h
    omega
  rw [List.getD_eq_getElem?_getD, List.getElem?_eq_getElem h,
    List.getD_eq_getElem?_getD, List.getElem?_eq_getElem ha]
  simp only [Option.getD_some]
  rw [show (vecMin a b)[d] = qmin a[d] b[d] from
    List.getElem_zipWith ..]
  exact qmin_le_left _ _

theorem vecMin_getD_le_right (a b : List ℚ) (d : ℕ) (h : d < (vecMin a b).length) :
    (vecMin a b).getD d 0 ≤ b.getD d 0 := by
  have hb : d < b.length := by
    rw [vecMin_length] at h
    omega
  have ha : d < a.length := by
    rw [vecMin_length] at h
    omega
  rw [List.getD_eq_getElem?_getD, List.getElem?_eq_getElem h,
    List.getD_eq_getElem?_getD, List.getElem?_eq_getElem hb]
  simp only [Option.getD_some]
  rw [show (vecMin a b)[d] = qmin a[d] b[d] from
    List.getElem_zipWith ..]
  exact qmin_le_right _ _

theorem vecMax_getD_ge_left (a b : List ℚ) (d : ℕ) (h : d < (vecMax a b).length) :
    a.getD d 0 ≤ (vecMax a b).getD d 0 := by
  have ha : d < a.length := by
    rw [vecMax_length] at h
    omega
  have hb : d < b.length := by
    rw [vecMax_length] at h
    omega
  rw [List.getD_eq_getElem?_getD (vecMax a b), List.getElem?_eq_getElem h,
    List.getD_eq_getElem?_getD, List.getElem?_eq_getElem ha]
  simp only [Option.getD_some]
  rw [show (vecMax a b)[d] = qmax a[d] b[d] from
    List.getElem_zipWith ..]
  exact le_qmax_left _ _

theorem vecMax_getD_ge_right (a b : List ℚ) (d : ℕ) (h : d < (vecMax a b).length) :
    b.getD d 0 ≤ (vecMax a b).getD d 0 := by
  have hb : d < b.length := by
    rw [vecMax_length] at h
    omega
  have ha : d < a.length := by
    rw [vecMax_length] at h
    omega
  rw [List.getD_eq_getElem?_getD (vecMax a b), List.getElem?_eq_getElem h,
    List.getD_eq_getElem?_getD, List.getElem?_eq_getElem hb]
  simp only [Option.getD_some]
  rw [show (vecMax a b)[d] = qmax a[d] b[d] from
    List.getElem_zipWith ..]
  exact le_qmax_right _ _

theorem foldl_vecMin_spec (vs : List (List ℚ)) : ∀ b : List ℚ,
    ((vs.foldl vecMin b).length ≤ b.length ∧
      ∀ d, d < (vs.foldl vecMin b).length →
        (vs.foldl vecMin b).getD d 0 ≤ b.getD d 0) ∧
    ∀ v ∈ vs, (vs.foldl vecMin b).length ≤ v.length ∧
      ∀ d, d < (vs.foldl vecMin b).length →
        (vs.foldl vecMin b).getD d 0 ≤ v.getD d 0 := by
  induction vs with
  | nil =>
    intro b
    exact ⟨⟨le_refl _, fun d _ => le_refl _⟩, by intro v hv; cases hv⟩
  | cons c vs ih =>
    intro b
    have hlen : (vs.foldl vecMin (vecMin b c)).length ≤ (vecMin b c).length :=
      ((ih (vecMin b c)).1).1
    have hpt : ∀ d, d < (vs.foldl vecMin (vecMin b c)).length →
        (vs.foldl vecMin (vecMin b c)).getD d 0 ≤ (vecMin b c).getD d 0 :=
      ((ih (vecMin b c)).1).2
    refine ⟨⟨?_, ?_⟩, ?_⟩
    · calc (vs.foldl vecMin (vecMin b c)).length ≤ (vecMin b c).length := hlen
      _ ≤ b.length := by rw [vecMin_length]; omega
    · intro d hd
      calc (vs.foldl vecMin (vecMin b c)).getD d 0
          ≤ (vecMin b c).getD d 0 := hpt d hd
        _ ≤ b.getD d 0 := vecMin_getD_le_left b c d (lt_of_lt_of_le hd hlen)
    · intro v hv
      rcases List.mem_cons.mp hv with h | h
      · subst h
        refine ⟨?_, ?_⟩
        · calc (vs.foldl vecMin (vecMin b v)).length ≤ (vecMin b v).length := hlen
          _ ≤ v.length := by rw [vecMin_length]; omega
        · intro d hd
          calc (vs.foldl vecMin (vecMin b v)).getD d 0
              ≤ (vecMin b v).getD d 0 := hpt d hd
            _ ≤ v.getD d 0 := vecMin_getD_le_right b v d (lt_of_lt_of_le hd hlen)
      · exact (ih (vecMin b c)).2 v h

theorem foldl_vecMax_spec (vs : List (List ℚ)) : ∀ b : List ℚ,
    ((vs.foldl vecMax b).length ≤ b.length ∧
      ∀ d, d < (vs.foldl vecMax b).length →
        b.getD d 0 ≤ (vs.foldl vecMax b).getD d 0) ∧
    ∀ v ∈ vs, (vs.foldl vecMax b).length ≤ v.length ∧
      ∀ d, d < (vs.foldl vecMax b).length →
        v.getD d 0 ≤ (vs.foldl vecMax b).getD d 0 := by
  induction vs with
  | nil =>
    intro b
    exact ⟨⟨le_refl _, fun d _ => le_refl _⟩, by intro v hv; cases hv⟩
  | cons c vs ih =>
    intro b
    have hlen : (vs.foldl vecMax (vecMax b c)).length ≤ (vecMax b c).length :=
      ((ih (vecMax b c)).1).1
    have hpt : ∀ d, d < (vs.foldl vecMax (vecMax b c)).length →
        (vecMax b c).getD d 0 ≤ (vs.foldl vecMax (vecMax b c)).getD d 0 :=
      ((ih (vecMax b c)).1).2
    refine ⟨⟨?_, ?_⟩, ?_⟩
    · calc (vs.foldl vecMax (vecMax b c)).length ≤ (vecMax b c).length := hlen
      _ ≤ b.length := by rw [vecMax_length]; omega
    · intro d hd
      calc b.getD d 0
          ≤ (vecMax b c).getD d 0 := vecMax_getD_ge_left b c d (lt_of_lt_of_le hd hlen)
        _ ≤ (vs.foldl vecMax (vecMax b c)).getD d 0 := hpt d hd
    · intro v hv
      rcases List.mem_cons.mp hv with h | h
      · subst h
        refine ⟨?_, ?_⟩
        · calc (vs.foldl vecMax (vecMax b v)).length ≤ (vecMax b v).length := hlen
          _ ≤ v.length := by rw [vecMax_length]; omega
        · intro d hd
          calc v.getD d 0
              ≤ (vecMax b v).getD d 0 := vecMax_getD_ge_right b v d (lt_of_lt_of_le hd hlen)
            _ ≤ (vs.foldl vecMax (vecMax b v)).getD d 0 := hpt d hd
      · exact (ih (vecMax b c)).2 v h

theorem rowsMin_spec (vs : List (List ℚ)) (v : List ℚ) (hv : v ∈ vs) :
    (rowsMin vs).length ≤ v.length ∧
    ∀ d, d < (rowsMin vs).length → (rowsMin vs).getD d 0 ≤ v.getD d 0 := by
  cases vs with
  | nil => cases hv
  | cons c vs =>
    rcases List.mem_cons.mp hv with h | h
    · subst h
      exact (foldl_vecMin_spec vs v).1
    · exact (foldl_vecMin_spec vs c).2 v h

theorem rowsMax_spec (vs : List (List ℚ)) (v : List ℚ) (hv : v ∈ vs) :
    (rowsMax vs).length ≤ v.length ∧
    ∀ d, d < (rowsMax vs).length → v.getD d 0 ≤ (rowsMax vs).getD d 0 := by
  cases vs with
  | nil => cases hv
  | cons c vs =>
    rcases List.mem_cons.mp hv with h | h
    · subst h
      exact (foldl_vecMax_spec vs v).1
    · exact (foldl_vecMax_spec vs c).2 v h

/-- Envelope `i` of batch `e` contains envelope `j` of batch `f`:
componentwise, the child's `mins` dominate the parent's `mins` and the
child's `maxs` are dominated by the parent's `maxs` (over the parent's
dimensions, which are no more numerous than the child's). -/
def envContains (e : EnvL) (i : ℕ) (f : EnvL) (j : ℕ) : Prop :=
  ((e.mins.getD i []).length ≤ (f.mins.getD j []).length ∧
    ∀ d, d < (e.mins.getD i []).length →
      (e.mins.getD i []).getD d 0 ≤ (f.mins.getD j []).getD d 0) ∧
  ((e.maxs.getD i []).length ≤ (f.maxs.getD j []).length ∧
    ∀ d, d < (e.maxs.getD i []).length →
      (f.maxs.getD j []).getD d 0 ≤ (e.maxs.getD i []).getD d 0)

theorem envContains_refl (e : EnvL) (i : ℕ) : envContains e i e i :=
  ⟨⟨le_refl _, fun _ _ => le_refl _⟩, ⟨le_refl _, fun _ _ => le_refl _⟩⟩

theorem envContains_trans {e f g : EnvL} {i j k : ℕ}
    (h1 : envContains e i f j) (h2 : envContains f j g k) :
    envContains e i g k := by
  refine ⟨⟨le_trans h1.1.1 h2.1.1, ?_⟩, ⟨le_trans h1.2.1 h2.2.1, ?_⟩⟩
  · intro d hd
    exact le_trans (h1.1.2 d hd) (h2.1.2 d (lt_of_lt_of_le hd h1.1.1))
  · intro d hd
    exact le_trans (h2.2.2 d (lt_of_lt_of_le hd h1.2.1)) (h1.2.2 d hd)

theorem mergeby_contains (e : EnvL) (idx : MMat) (i j : ℕ)
    (hj : j ∈ compressedRow (idx.getD i [])) :
    envContains (mergeby e idx) i e j := by
  by_cases hi : i < idx.length
  · have hmins : (mergeby e idx).mins.getD i [] =
        rowsMin ((compressedRow (idx.getD i [])).map fun t => e.mins.getD t []) := by
      show (idx.map _).getD i [] = _
      rw [getD_map_lt _ hi [] []]
    have hmaxs : (mergeby e idx).maxs.getD i [] =
        rowsMax ((compressedRow (idx.getD i [])).map fun t => e.maxs.getD t []) := by
      show (idx.map _).getD i [] = _
      rw [getD_map_lt _ hi [] []]
    have hmemMin : e.mins.getD j [] ∈
        (compressedRow (idx.getD i [])).map fun t => e.mins.getD t [] :=
      List.mem_map.mpr ⟨j, hj, rfl⟩
    have hmemMax : e.maxs.getD j [] ∈
        (compressedRow (idx.getD i [])).map fun t => e.maxs.getD t [] :=
      List.mem_map.mpr ⟨j, hj, rfl⟩
    constructor
    · rw [hmins]
      exact rowsMin_spec _ _ hmemMin
    · rw [hmaxs]
      exact rowsMax_spec _ _ hmemMax
  · exfalso
    rw [List.getD_eq_default] at hj
    · cases hj
    · omega

/-- The level-structure invariant maintained by the packing loop: every level
is the `mergeby` of the level below it through the children matrix stored at
its own position. -/
def StrInv (envs : List EnvL) (chs : List MMat) : Prop :=
  ∀ ℓ, ℓ + 1 < envs.length →
    envs.getD ℓ E0 = mergeby (envs.getD (ℓ + 1) E0) (chs.getD ℓ [])

theorem strLoop_zero (p t : ℕ) (top : EnvL) (rest : List EnvL) (chs : List MMat) :
    strLoop p t 0 (top :: rest) chs =
      if lenE top ≤ t then some ⟨top :: rest, chs⟩ else none := rfl

theorem strLoop_succ (p t fuel : ℕ) (top : EnvL) (rest : List EnvL) (chs : List MMat) :
    strLoop p t (fuel + 1) (top :: rest) chs =
      if lenE top ≤ t then some ⟨top :: rest, chs⟩
      else strLoop p t fuel
        (mergeby top (sort_tile p (ndimsE top) (centers top)) :: top :: rest)
        (sort_tile p (ndimsE top) (centers top) :: chs) := rfl

theorem strLoop_inv (p t : ℕ) : ∀ (fuel : ℕ) (envs : List EnvL) (chs : List MMat)
    (b : BVHL), StrInv envs chs → strLoop p t fuel envs chs = some b →
    StrInv b.envelopes b.children := by
  intro fuel
  induction fuel with
  | zero =>
    intro envs chs b hinv hb
    cases envs with
    | nil => cases hb
    | cons top rest =>
      rw [strLoop_zero] at hb
      by_cases htop : lenE top ≤ t
      · rw [if_pos htop] at hb
        cases hb
        exact hinv
      · rw [if_neg htop] at hb
        cases hb
  | succ fuel ih =>
    intro envs chs b hinv hb
    cases envs with
    | nil => cases hb
    | cons top rest =>
      rw [strLoop_succ] at hb
      by_cases htop : lenE top ≤ t
      · rw [if_pos htop] at hb
        cases hb
        exact hinv
      · rw [if_neg htop] at hb
        apply ih _ _ b _ hb
        intro ℓ hℓ
        cases ℓ with
        | zero => rfl
        | succ ℓ =>
          have := hinv ℓ (by simpa using hℓ)
          simpa using this

/-- One parent-to-child step in a built hierarchy: from node `a.2` at level
`a.1` to node `c.2` at level `a.1 + 1`, where `c.2` is an unmasked entry of
the parent's row in the level's children matrix. -/
def childStep (b : BVHL) (a c : ℕ × ℕ) : Prop :=
  c.1 = a.1 + 1 ∧ c.1 < depthB b ∧
  c.2 ∈ compressedRow ((b.children.getD a.1 []).getD a.2 [])

/-- C7: in every BVH returned by `sort_tile_recurse`, every node's envelope
contains the envelopes of all its children, and (following any chain of
child steps) of all its descendants down to the leaves: componentwise, the
descendant's `mins` dominate the ancestor's `mins` and its `maxs` are
dominated by the ancestor's `maxs`. -/
theorem str_envelope_containment (egeoms : EnvL) (p t fuel : ℕ) (b : BVHL)
    (hb : sort_tile_recurse egeoms p t fuel = some b) :
    ∀ a c, Relation.ReflTransGen (childStep b) a c →
      envContains (b.envelopes.getD a.1 E0) a.2 (b.envelopes.getD c.1 E0) c.2 := by
  have hinv : StrInv b.envelopes b.children := by
    apply strLoop_inv p t fuel _ _ b _ hb
    intro ℓ hℓ
    simp at hℓ
  have hstep : ∀ a c, childStep b a c →
      envContains (b.envelopes.getD a.1 E0) a.2 (b.envelopes.getD c.1 E0) c.2 := by
    intro a c ⟨hc1, hdepth, hmem⟩
    have : b.envelopes.getD a.1 E0 =
        mergeby (b.envelopes.getD (a.1 + 1) E0) (b.children.getD a.1 []) := by
      apply hinv a.1
      rw [← hc1]
      exact hdepth
    rw [this, hc1]
    exact mergeby_contains _ _ _ _ hmem
  intro a c h
  induction h with
  | refl => exact envContains_refl _ _
  | tail _ hlast ih =>
    exact envContains_trans ih (hstep _ _ hlast)

/-- The hierarchy built over `pts5` with `page_size = 2`, `max_top_size = 1`. -/
def bvh5 : BVHL := (sort_tile_recurse pts5 2 1 5).getD ⟨[], []⟩

/-- Witness for C7 at a concrete input: in the `pts5` hierarchy, leaf `0` is
a child of node `0` at the last internal level, and the internal node's
envelope contains the leaf's. -/
theorem str_envelope_containment_witness :
    sort_tile_recurse pts5 2 1 5 = some bvh5 ∧
    childStep bvh5 (2, 0) (3, 0) ∧
    envContains (bvh5.envelopes.getD 2 E0) 0 (bvh5.envelopes.getD 3 E0) 0 := by
  have hb : sort_tile_recurse pts5 2 1 5 = some bvh5 := by
    with_unfolding_all decide
  have hstep : childStep bvh5 (2, 0) (3, 0) := by
    refine ⟨rfl, ?_, ?_⟩ <;> with_unfolding_all decide
  exact ⟨hb, hstep,
    str_envelope_containment pts5 2 1 5 bvh5 hb (2, 0) (3, 0)
      (Relation.ReflTransGen.single hstep)⟩

/-! ### Termination of the packing loop for `page_size ≥ 2` (claim C9) -/

theorem find?_range_least {q : ℕ → Bool} : ∀ {N x : ℕ},
    (List.range N).find? q = some x → ∀ y, y < x → q y = false := by
  intro N
  induction N with
  | zero => intro x h; cases h
  | succ N ih =>
    intro x h y hy
    rw [List.range_succ, List.find?_append] at h
    cases hfind : (List.range N).find? q with
    | some x' =>
      rw [hfind] at h
      simp only [Option.or] at h
      cases h
      exact ih hfind y hy
    | none =>
      rw [hfind] at h
      simp only [Option.or] at h
      have hx : x = N := by
        cases hN : q N with
        | true => simp [List.find?, hN] at h; omega
        | false => simp [List.find?, hN] at h
      rw [hx] at hy
      have hmem : y ∈ List.range N := List.mem_range.mpr hy
      have := List.find?_eq_none.mp hfind y hmem
      simpa using this

theorem ceilRoot_le {d n p t : ℕ} (ht : t ≤ n) (hsat : n ≤ t ^ d * p) :
    ceilRoot d n p ≤ t := by
  unfold ceilRoot
  cases hfind : (List.range (n + 1)).find? (fun t => decide (n ≤ t ^ d * p)) with
  | none =>
    exfalso
    have hmem : t ∈ List.range (n + 1) := List.mem_range.mpr (by omega)
    have := List.find?_eq_none.mp hfind t hmem
    simp at this
    omega
  | some x =>
    simp only [Option.getD_some]
    by_contra hcon
    push_neg at hcon
    have := find?_range_least hfind t hcon
    simp at this
    omega

theorem ceilRoot_le_self (d n p : ℕ) : ceilRoot d n p ≤ n := by
  unfold ceilRoot
  cases hfind : (List.range (n + 1)).find? (fun t => decide (n ≤ t ^ d * p)) with
  | none => simp
  | some x =>
    simp only [Option.getD_some]
    have := List.mem_of_find?_eq_some hfind
    rw [List.mem_range] at this
    omega

theorem ceilRoot_pos {d n p : ℕ} (hn : 1 ≤ n) (hd : 1 ≤ d) : 1 ≤ ceilRoot d n p := by
  unfold ceilRoot
  cases hfind : (List.range (n + 1)).find? (fun t => decide (n ≤ t ^ d * p)) with
  | none => simp; omega
  | some x =>
    simp only [Option.getD_some]
    have := List.find?_some hfind
    simp at this
    by_contra hx
    push_neg at hx
    interval_cases x
    rw [Nat.zero_pow (by omega)] at this
    omega

/-- For `p ≥ 2`, the number of one-dimensional tiles for `m` observations is
at most `(m+1)/2`. -/
theorem ceilRoot_one_le_half {m p : ℕ} (hp : 2 ≤ p) :
    ceilRoot 1 m p ≤ (m + 1) / 2 := by
  cases m with
  | zero =>
    exact le_trans (ceilRoot_le_self 1 0 p) (by omega)
  | succ m' =>
    apply ceilRoot_le (by omega)
    have h1 : (m' + 1 + 1) / 2 * 2 ≤ (m' + 1 + 1) / 2 * p :=
      Nat.mul_le_mul_left _ hp
    have h2 : m' + 1 ≤ (m' + 1 + 1) / 2 * 2 := by omega
    calc m' + 1 ≤ (m' + 1 + 1) / 2 * 2 := h2
      _ ≤ (m' + 1 + 1) / 2 * p := h1
      _ = ((m' + 1 + 1) / 2) ^ 1 * p := by ring

/-- For `p ≥ 2` and `n ≥ 2`, the top-level tile count is strictly less
than `n`. -/
theorem ceilRoot_two_lt {n p : ℕ} (hp : 2 ≤ p) (hn : 2 ≤ n) :
    ceilRoot 2 n p < n := by
  obtain ⟨m, hm⟩ : ∃ m, n = m + 2 := ⟨n - 2, by omega⟩
  subst hm
  have h : ceilRoot 2 (m + 2) p ≤ m + 1 := by
    apply ceilRoot_le (by omega)
    have hq : m + 2 ≤ (m + 1) * (m + 1) * 2 := by nlinarith
    calc m + 2 ≤ (m + 1) * (m + 1) * 2 := hq
      _ ≤ (m + 1) * (m + 1) * p := Nat.mul_le_mul_left _ hp
      _ = (m + 1) ^ 2 * p := by ring
  omega

theorem chunkRows_length : ∀ (l : List ℕ) (rows w : ℕ),
    (chunkRows l rows w).length = rows := by
  intro l rows
  induction rows generalizing l with
  | zero => intro w; rfl
  | succ rows ih =>
    intro w
    show (l.take w :: chunkRows (l.drop w) rows w).length = rows + 1
    rw [List.length_cons, ih]

theorem chunkRows_flatten : ∀ (rows : ℕ) (l : List ℕ) (w : ℕ),
    l.length = rows * w → (chunkRows l rows w).flatten = l := by
  intro rows
  induction rows with
  | zero =>
    intro l w hl
    have : l = [] := List.eq_nil_of_length_eq_zero (by omega)
    subst this
    rfl
  | succ rows ih =>
    intro l w hl
    show (l.take w :: chunkRows (l.drop w) rows w).flatten = l
    have hrw : (rows + 1) * w = rows * w + w := by ring
    rw [List.flatten_cons, ih (l.drop w) w (by rw [List.length_drop]; omega)]
    exact List.take_append_drop w l

theorem chunkRows_row_length : ∀ (rows : ℕ) (l : List ℕ) (w : ℕ),
    l.length = rows * w → ∀ row ∈ chunkRows l rows w, row.length = w := by
  intro rows
  induction rows with
  | zero => intro l w _ row hrow; cases hrow
  | succ rows ih =>
    intro l w hl row hrow
    have hrw : (rows + 1) * w = rows * w + w := by ring
    rcases List.mem_cons.mp hrow with h | h
    · subst h
      rw [List.length_take]
      have : w ≤ l.length := by
        rw [hl]
        calc w = 1 * w := (one_mul w).symm
        _ ≤ (rows + 1) * w := Nat.mul_le_mul_right _ (by omega)
      omega
    · exact ih (l.drop w) w (by rw [List.length_drop]; omega) row h

theorem chunkRows_mem_of_mem : ∀ (rows : ℕ) (l : List ℕ) (w : ℕ)
    (row : List ℕ), row ∈ chunkRows l rows w → ∀ v ∈ row, v ∈ l := by
  intro rows
  induction rows with
  | zero => intro l w row hrow; cases hrow
  | succ rows ih =>
    intro l w row hrow v hv
    rcases List.mem_cons.mp hrow with h | h
    · subst h
      exact List.mem_of_mem_take hv
    · exact List.mem_of_mem_drop (ih (l.drop w) w row h v hv)

theorem argsortQ_length (xs : List ℚ) : (argsortQ xs).length = xs.length := by
  unfold argsortQ
  rw [List.length_insertionSort, List.length_range]

theorem argsortQ_mem_lt (xs : List ℚ) (x : ℕ) (hx : x ∈ argsortQ xs) :
    x < xs.length := by
  unfold argsortQ at hx
  rw [(List.perm_insertionSort _ _).mem_iff, List.mem_range] at hx
  exact hx

theorem compressedRow_unmasked (l : List ℕ) :
    compressedRow (l.map fun v => (v, false)) = l := by
  unfold compressedRow
  rw [List.filter_map]
  have h1 : ((fun c : MCell => !c.2) ∘ fun v : ℕ => (v, false)) = fun _ => true := by
    funext v
    rfl
  have h2 : ((fun c : MCell => c.1) ∘ fun v : ℕ => (v, false)) = id := by
    funext v
    rfl
  rw [h1, List.filter_true, List.map_map, h2, List.map_id]

theorem compressedRow_append (a b : List MCell) :
    compressedRow (a ++ b) = compressedRow a ++ compressedRow b := by
  unfold compressedRow
  rw [List.filter_append, List.map_append]

theorem compressedRow_masked_pad (m : ℕ) :
    compressedRow (List.replicate m ((0 : ℕ), true)) = [] := by
  unfold compressedRow
  rw [List.filter_eq_nil_iff.mpr]
  · rfl
  · intro c hc
    rw [List.eq_of_mem_replicate hc]
    simp

theorem rowCount_padded (l : List ℕ) (m : ℕ) :
    rowCount ((l.map fun v => (v, false)) ++ List.replicate m ((0 : ℕ), true))
      = l.length := by
  unfold rowCount
  rw [compressedRow_append, compressedRow_unmasked, compressedRow_masked_pad,
    List.append_nil]

theorem mem_compressedRow {row : List MCell} {v : ℕ} (h : v ∈ compressedRow row) :
    ∃ m, (v, m) ∈ row := by
  unfold compressedRow at h
  obtain ⟨c, hc, hv⟩ := List.mem_map.mp h
  exact ⟨c.2, by rw [← hv]; exact List.mem_of_mem_filter hc⟩

theorem _concat_rows (blocks : List (List (List ℕ))) (widths : List ℕ) (row : List MCell)
    (hrow : row ∈ _concat blocks widths) :
    ∃ b ∈ blocks, ∃ brow ∈ b, row =
      (brow.map fun v => (v, false)) ++
        List.replicate (widths.foldr max 0 - brow.length) ((0 : ℕ), true) := by
  unfold _concat at hrow
  obtain ⟨b, hb, hrow'⟩ := List.mem_flatMap.mp hrow
  obtain ⟨brow, hbrow, heq⟩ := List.mem_map.mp hrow'
  exact ⟨b, hb, brow, hbrow, heq.symm⟩

theorem _concat_length (blocks : List (List (List ℕ))) (widths : List ℕ) :
    (_concat blocks widths).length = (blocks.map List.length).sum := by
  unfold _concat
  rw [List.length_flatMap]
  congr 1
  apply List.map_congr_left
  intro b _
  simp

theorem _concat_counts (blocks : List (List (List ℕ))) (widths : List ℕ) :
    ((_concat blocks widths).map rowCount).sum =
      ((blocks.flatten).map List.length).sum := by
  unfold _concat
  rw [List.map_flatMap, List.flatMap_def, List.sum_flatten, List.map_map,
    List.map_flatten, List.sum_flatten, List.map_map]
  congr 1
  apply List.map_congr_left
  intro b _
  simp only [Function.comp_apply, List.map_map]
  congr 1
  apply List.map_congr_left
  intro row _
  simp only [Function.comp_apply]
  exact rowCount_padded row _

theorem sort_tile_one_eq (xs : List ℚ) (nb : ℕ) :
    sort_tile_one xs nb =
      if xs.length % nb = 0 then
        (chunkRows (argsortQ xs) nb (xs.length / nb)).map fun row =>
          row.map fun v => (v, false)
      else
        _concat
          [chunkRows ((argsortQ xs).take ((xs.length / nb + 1) * (xs.length % nb)))
             (xs.length % nb) (xs.length / nb + 1),
           chunkRows ((argsortQ xs).drop ((xs.length / nb + 1) * (xs.length % nb)))
             (nb - xs.length % nb) (xs.length / nb)]
          [xs.length / nb + 1, xs.length / nb] := rfl

theorem sort_tile_one_length (xs : List ℚ) (nb : ℕ) (hnb : 1 ≤ nb) :
    (sort_tile_one xs nb).length = nb := by
  rw [sort_tile_one_eq]
  by_cases hr : xs.length % nb = 0
  · rw [if_pos hr, List.length_map, chunkRows_length]
  · rw [if_neg hr, _concat_length]
    simp only [List.map_cons, List.map_nil, chunkRows_length, List.sum_cons,
      List.sum_nil]
    have : xs.length % nb < nb := Nat.mod_lt _ (by omega)
    omega

theorem take_arg_length (xs : List ℚ) (nb : ℕ) (hnb : 1 ≤ nb) :
    ((argsortQ xs).take ((xs.length / nb + 1) * (xs.length % nb))).length =
      (xs.length % nb) * (xs.length / nb + 1) := by
  rw [List.length_take, argsortQ_length]
  have hmod : nb * (xs.length / nb) + xs.length % nb = xs.length :=
    Nat.div_add_mod xs.length nb
  have hr : xs.length % nb < nb := Nat.mod_lt _ (by omega)
  have h1 : (xs.length / nb + 1) * (xs.length % nb) =
      (xs.length / nb) * (xs.length % nb) + xs.length % nb := by ring
  have h2 : (xs.length / nb) * (xs.length % nb) ≤ (xs.length / nb) * nb :=
    Nat.mul_le_mul_left _ (by omega)
  have h3 : (xs.length / nb) * nb = nb * (xs.length / nb) := Nat.mul_comm ..
  have h4 : (xs.length % nb) * (xs.length / nb + 1) =
      (xs.length / nb + 1) * (xs.length % nb) := Nat.mul_comm ..
  omega

theorem drop_arg_length (xs : List ℚ) (nb : ℕ) (hnb : 1 ≤ nb) :
    ((argsortQ xs).drop ((xs.length / nb + 1) * (xs.length % nb))).length =
      (nb - xs.length % nb) * (xs.length / nb) := by
  rw [List.length_drop, argsortQ_length]
  have hmod : nb * (xs.length / nb) + xs.length % nb = xs.length :=
    Nat.div_add_mod xs.length nb
  have hr : xs.length % nb < nb := Nat.mod_lt _ (by omega)
  set q := xs.length / nb
  set r := xs.length % nb
  have key : nb * q = r * q + (nb - r) * q := by
    calc nb * q = (r + (nb - r)) * q := by rw [show r + (nb - r) = nb from by omega]
      _ = r * q + (nb - r) * q := Nat.add_mul ..
  have h1 : (q + 1) * r = q * r + r := by ring
  have h2 : q * r = r * q := Nat.mul_comm ..
  omega

theorem sort_tile_one_counts (xs : List ℚ) (nb : ℕ) (hnb : 1 ≤ nb) :
    ((sort_tile_one xs nb).map rowCount).sum = xs.length := by
  rw [sort_tile_one_eq]
  by_cases hr : xs.length % nb = 0
  · rw [if_pos hr, List.map_map]
    have hcomp : (rowCount ∘ fun row : List ℕ => row.map fun v => (v, false))
        = List.length := by
      funext row
      simp only [Function.comp_apply]
      unfold rowCount
      rw [compressedRow_unmasked]
    rw [hcomp, ← List.length_flatten,
      chunkRows_flatten nb (argsortQ xs) (xs.length / nb)
        (by
          rw [argsortQ_length]
          have hmod : nb * (xs.length / nb) + xs.length % nb = xs.length :=
            Nat.div_add_mod xs.length nb
          omega),
      argsortQ_length]
  · rw [if_neg hr, _concat_counts]
    show ((([(chunkRows _ _ _), (chunkRows _ _ _)] : List (List (List ℕ))).flatten).map
      List.length).sum = xs.length
    rw [show ([(chunkRows ((argsortQ xs).take ((xs.length / nb + 1) * (xs.length % nb)))
        (xs.length % nb) (xs.length / nb + 1)),
      (chunkRows ((argsortQ xs).drop ((xs.length / nb + 1) * (xs.length % nb)))
        (nb - xs.length % nb) (xs.length / nb))] : List (List (List ℕ))).flatten =
        chunkRows ((argsortQ xs).take ((xs.length / nb + 1) * (xs.length % nb)))
          (xs.length % nb) (xs.length / nb + 1) ++
        chunkRows ((argsortQ xs).drop ((xs.length / nb + 1) * (xs.length % nb)))
          (nb - xs.length % nb) (xs.length / nb) from by simp]
    rw [List.map_append, List.sum_append, ← List.length_flatten, ← List.length_flatten,
      chunkRows_flatten _ _ _ (take_arg_length xs nb hnb),
      chunkRows_flatten _ _ _ (drop_arg_length xs nb hnb),
      List.length_take, List.length_drop, argsortQ_length]
    have hmod : nb * (xs.length / nb) + xs.length % nb = xs.length :=
      Nat.div_add_mod xs.length nb
    have h1 : (xs.length / nb + 1) * (xs.length % nb) =
        (xs.length / nb) * (xs.length % nb) + xs.length % nb := by ring
    have h2 : (xs.length / nb) * (xs.length % nb) ≤ (xs.length / nb) * nb :=
      Nat.mul_le_mul_left _ (le_of_lt (Nat.mod_lt _ (by omega)))
    have h3 : (xs.length / nb) * nb = nb * (xs.length / nb) := Nat.mul_comm ..
    omega

theorem rowCount_le_length (row : List MCell) : rowCount row ≤ row.length := by
  unfold rowCount compressedRow
  rw [List.length_map]
  exact List.length_filter_le _ _

theorem sort_tile_one_row_facts (xs : List ℚ) (nb : ℕ) (hnb : 1 ≤ nb)
    (row : List MCell) (hrow : row ∈ sort_tile_one xs nb) :
    rowCount row = xs.length / nb ∨ rowCount row = xs.length / nb + 1 := by
  rw [sort_tile_one_eq] at hrow
  by_cases hr : xs.length % nb = 0
  · rw [if_pos hr] at hrow
    obtain ⟨crow, hcrow, heq⟩ := List.mem_map.mp hrow
    subst heq
    left
    have hlen : (argsortQ xs).length = nb * (xs.length / nb) := by
      rw [argsortQ_length]
      have hmod : nb * (xs.length / nb) + xs.length % nb = xs.length :=
        Nat.div_add_mod xs.length nb
      omega
    have := chunkRows_row_length nb (argsortQ xs) (xs.length / nb) hlen crow hcrow
    unfold rowCount
    rw [compressedRow_unmasked, this]
  · rw [if_neg hr] at hrow
    obtain ⟨b, hb, brow, hbrow, heq⟩ := _concat_rows _ _ _ hrow
    subst heq
    rw [rowCount_padded]
    rcases List.mem_cons.mp hb with h | h
    · subst h
      right
      exact chunkRows_row_length _ _ _ (take_arg_length xs nb hnb) brow hbrow
    · rcases List.mem_cons.mp h with h' | h'
      · subst h'
        left
        exact chunkRows_row_length _ _ _ (drop_arg_length xs nb hnb) brow hbrow
      · cases h'

theorem sort_tile_one_values (xs : List ℚ) (nb : ℕ)
    (row : List MCell) (hrow : row ∈ sort_tile_one xs nb) (c : MCell) (hc : c ∈ row) :
    c.1 ∈ argsortQ xs ∨ c.1 = 0 := by
  rw [sort_tile_one_eq] at hrow
  by_cases hr : xs.length % nb = 0
  · rw [if_pos hr] at hrow
    obtain ⟨crow, hcrow, heq⟩ := List.mem_map.mp hrow
    subst heq
    obtain ⟨v, hv, hveq⟩ := List.mem_map.mp hc
    left
    rw [← hveq]
    exact chunkRows_mem_of_mem _ _ _ _ hcrow v hv
  · rw [if_neg hr] at hrow
    obtain ⟨b, hb, brow, hbrow, heq⟩ := _concat_rows _ _ _ hrow
    subst heq
    rcases List.mem_append.mp hc with h | h
    · obtain ⟨v, hv, hveq⟩ := List.mem_map.mp h
      left
      rw [← hveq]
      show v ∈ argsortQ xs
      rcases List.mem_cons.mp hb with h' | h'
      · subst h'
        exact List.mem_of_mem_take (chunkRows_mem_of_mem _ _ _ _ hbrow v hv)
      · rcases List.mem_cons.mp h' with h'' | h''
        · subst h''
          exact List.mem_of_mem_drop (chunkRows_mem_of_mem _ _ _ _ hbrow v hv)
        · cases h''
    · right
      rw [List.eq_of_mem_replicate h]

theorem get_shape_fst (p n d : ℕ) : (get_shape p n d).1 = ceilRoot d n p := rfl

theorem sort_tile_one_dim (p : ℕ) (cs : List (List ℚ)) :
    sort_tile p 1 cs =
      sort_tile_one (cs.map fun row => row.getD 0 0) (get_shape p cs.length 1).1 := rfl

theorem sort_tile_two_eq (p : ℕ) (coords : List (List ℚ)) :
    sort_tile p 2 coords =
      _concat
        ((sort_tile_one (coords.map fun row => row.getD 0 0)
            (get_shape p coords.length 2).1).map fun s =>
          (sort_tile p 1
              ((compressedRow s).map fun i => (coords.getD i []).drop 1)).map
            fun irow => irow.map fun c => (compressedRow s).getD c.1 0)
        ((sort_tile_one (coords.map fun row => row.getD 0 0)
            (get_shape p coords.length 2).1).map fun s =>
          (get_shape p (rowCount s) 1).2) := rfl

theorem sort_tile1_length (p : ℕ) (cs : List (List ℚ)) (h : 1 ≤ cs.length) :
    (sort_tile p 1 cs).length = ceilRoot 1 cs.length p := by
  rw [sort_tile_one_dim, sort_tile_one_length]
  · rw [← List.length_map cs (fun row => row.getD 0 0), get_shape_fst,
      List.length_map]
  · rw [get_shape_fst]
    exact ceilRoot_pos (by omega) (by omega)

theorem sum_half_succ_le (l : List ℕ) :
    (l.map fun c => (c + 1) / 2).sum ≤ (l.sum + l.length) / 2 := by
  induction l with
  | nil => simp
  | cons c l ih =>
    simp only [List.map_cons, List.sum_cons, List.length_cons]
    omega

theorem one_le_div_of_le {a b : ℕ} (hb : 1 ≤ b) (h : b ≤ a) : 1 ≤ a / b :=
  (Nat.one_le_div_iff (by omega)).mpr h

theorem sort_tile2_length_lt (p : ℕ) (hp : 2 ≤ p) (coords : List (List ℚ))
    (hn : 2 ≤ coords.length) :
    (sort_tile p 2 coords).length < coords.length := by
  have hxs : (coords.map fun row => row.getD 0 0).length = coords.length :=
    List.length_map ..
  have hT1 : 1 ≤ ceilRoot 2 coords.length p := ceilRoot_pos (by omega) (by omega)
  have hnb : 1 ≤ (get_shape p coords.length 2).1 := by
    rw [get_shape_fst]
    exact hT1
  have hq1 : 1 ≤ coords.length / ceilRoot 2 coords.length p :=
    one_le_div_of_le hT1 (ceilRoot_le_self ..)
  have hsplits_len :
      (sort_tile_one (coords.map fun row => row.getD 0 0)
        (get_shape p coords.length 2).1).length = ceilRoot 2 coords.length p := by
    rw [sort_tile_one_length _ _ hnb, get_shape_fst]
  have hcounts :
      ((sort_tile_one (coords.map fun row => row.getD 0 0)
        (get_shape p coords.length 2).1).map rowCount).sum = coords.length := by
    rw [sort_tile_one_counts _ _ hnb, hxs]
  have hcount_pos : ∀ s ∈ sort_tile_one (coords.map fun row => row.getD 0 0)
      (get_shape p coords.length 2).1, 1 ≤ rowCount s := by
    intro s hs
    rcases sort_tile_one_row_facts _ _ hnb s hs with h | h <;>
      rw [h, hxs, get_shape_fst] <;> omega
  rw [sort_tile_two_eq, _concat_length, List.map_map]
  have hpoint : ∀ s ∈ sort_tile_one (coords.map fun row => row.getD 0 0)
      (get_shape p coords.length 2).1,
      (List.length ∘ fun s : List MCell =>
        (sort_tile p 1 ((compressedRow s).map fun i => (coords.getD i []).drop 1)).map
          fun irow => irow.map fun c => (compressedRow s).getD c.1 0) s =
        ceilRoot 1 (rowCount s) p := by
    intro s hs
    simp only [Function.comp_apply, List.length_map]
    rw [sort_tile1_length]
    · rw [List.length_map]
      rfl
    · rw [List.length_map]
      exact hcount_pos s hs
  rw [List.map_congr_left hpoint]
  have hhalf : ∀ s ∈ sort_tile_one (coords.map fun row => row.getD 0 0)
      (get_shape p coords.length 2).1,
      ceilRoot 1 (rowCount s) p ≤ (rowCount s + 1) / 2 := by
    intro s _
    exact ceilRoot_one_le_half hp
  calc ((sort_tile_one (coords.map fun row => row.getD 0 0)
          (get_shape p coords.length 2).1).map
        fun s => ceilRoot 1 (rowCount s) p).sum
      ≤ ((sort_tile_one (coords.map fun row => row.getD 0 0)
          (get_shape p coords.length 2).1).map
        fun s => (rowCount s + 1) / 2).sum := List.sum_le_sum hhalf
    _ = (((sort_tile_one (coords.map fun row => row.getD 0 0)
          (get_shape p coords.length 2).1).map rowCount).map
        fun c => (c + 1) / 2).sum := by rw [List.map_map]; rfl
    _ ≤ (((sort_tile_one (coords.map fun row => row.getD 0 0)
          (get_shape p coords.length 2).1).map rowCount).sum +
        ((sort_tile_one (coords.map fun row => row.getD 0 0)
          (get_shape p coords.length 2).1).map rowCount).length) / 2 :=
      sum_half_succ_le _
    _ < coords.length := by
      rw [hcounts, List.length_map, hsplits_len]
      have := ceilRoot_two_lt hp hn
      omega

theorem getD_mem_or {α : Type} (l : List α) (i : ℕ) (d : α) :
    l.getD i d ∈ l ∨ l.getD i d = d := by
  by_cases h : i < l.length
  · left
    rw [List.getD_eq_getElem?_getD, List.getElem?_eq_getElem h]
    exact List.getElem_mem h
  · right
    exact List.getD_eq_default _ _ (by omega)

theorem sort_tile2_cell_values (p : ℕ) (coords : List (List ℚ))
    (hn : 1 ≤ coords.length) :
    ∀ row ∈ sort_tile p 2 coords, ∀ c ∈ row, c.1 < coords.length := by
  have hxs : (coords.map fun row => row.getD 0 0).length = coords.length :=
    List.length_map ..
  rw [sort_tile_two_eq]
  intro row hrow c hc
  obtain ⟨b, hb, brow, hbrow, heq⟩ := _concat_rows _ _ _ hrow
  subst heq
  rcases List.mem_append.mp hc with h | h
  · obtain ⟨v, hv, hveq⟩ := List.mem_map.mp h
    rw [← hveq]
    show v < coords.length
    obtain ⟨s, hs, hbdef⟩ := List.mem_map.mp hb
    subst hbdef
    obtain ⟨irow, _, hbroweq⟩ := List.mem_map.mp hbrow
    subst hbroweq
    obtain ⟨c', _, hc'eq⟩ := List.mem_map.mp hv
    rw [← hc'eq]
    rcases getD_mem_or (compressedRow s) c'.1 0 with hmem | hdef
    · obtain ⟨m, hmcell⟩ := mem_compressedRow hmem
      rcases sort_tile_one_values _ _ s hs _ hmcell with harg | hzero
      · have := argsortQ_mem_lt _ _ harg
        omega
      · simp only at hzero
        omega
    · rw [hdef]
      omega
  · rw [List.eq_of_mem_replicate h]
    exact hn

theorem sort_tile2_rowCount_pos (p : ℕ) (coords : List (List ℚ))
    (hn : 1 ≤ coords.length) :
    ∀ row ∈ sort_tile p 2 coords, 1 ≤ rowCount row := by
  have hxs : (coords.map fun row => row.getD 0 0).length = coords.length :=
    List.length_map ..
  have hT1 : 1 ≤ ceilRoot 2 coords.length p := ceilRoot_pos (by omega) (by omega)
  have hnb : 1 ≤ (get_shape p coords.length 2).1 := by
    rw [get_shape_fst]
    exact hT1
  rw [sort_tile_two_eq]
  intro row hrow
  obtain ⟨b, hb, brow, hbrow, heq⟩ := _concat_rows _ _ _ hrow
  subst heq
  rw [rowCount_padded]
  obtain ⟨s, hs, hbdef⟩ := List.mem_map.mp hb
  subst hbdef
  obtain ⟨irow, hirow, hbroweq⟩ := List.mem_map.mp hbrow
  subst hbroweq
  rw [List.length_map]
  -- the inner row has positive length: its count is q' or q'+1 with q' ≥ 1
  have hq1 : 1 ≤ coords.length / ceilRoot 2 coords.length p :=
    one_le_div_of_le hT1 (ceilRoot_le_self ..)
  have hcount_s : 1 ≤ rowCount s := by
    rcases sort_tile_one_row_facts _ _ hnb s hs with h | h
    · rw [h, hxs, get_shape_fst]
      exact hq1
    · rw [h]
      exact Nat.succ_le_succ (Nat.zero_le _)
  have hinner_nb : 1 ≤ (get_shape p
      ((compressedRow s).map fun i => (coords.getD i []).drop 1).length 1).1 := by
    rw [get_shape_fst]
    apply ceilRoot_pos _ (by omega)
    rw [List.length_map]
    exact hcount_s
  rw [sort_tile_one_dim] at hirow
  have hq' : 1 ≤ (((compressedRow s).map fun i => (coords.getD i []).drop 1).map
      fun row => row.getD 0 0).length /
      (get_shape p ((compressedRow s).map fun i => (coords.getD i []).drop 1).length 1).1 := by
    rw [List.length_map, get_shape_fst]
    apply one_le_div_of_le
    · apply ceilRoot_pos _ (by omega)
      rw [List.length_map]
      exact hcount_s
    · exact ceilRoot_le_self ..
  rcases sort_tile_one_row_facts _ _ hinner_nb irow hirow with h | h
  · have := rowCount_le_length irow
    omega
  · have := rowCount_le_length irow
    omega

/-- Rectangularity in two dimensions: every coordinate row has length 2 and
`mins` and `maxs` have the same number of rows. -/
def rect2 (e : EnvL) : Prop :=
  (∀ row ∈ e.mins, row.length = 2) ∧ (∀ row ∈ e.maxs, row.length = 2) ∧
    e.maxs.length = e.mins.length

theorem foldl_vecMin_length_const {L : ℕ} :
    ∀ (vs : List (List ℚ)) (b : List ℚ), b.length = L →
      (∀ v ∈ vs, v.length = L) → (vs.foldl vecMin b).length = L := by
  intro vs
  induction vs with
  | nil => intro b hb _; exact hb
  | cons c vs ih =>
    intro b hb hall
    show (vs.foldl vecMin (vecMin b c)).length = L
    apply ih
    · rw [vecMin_length, hb, hall c (List.mem_cons_self c vs)]
      omega
    · intro v hv
      exact hall v (List.mem_cons_of_mem c hv)

theorem foldl_vecMax_length_const {L : ℕ} :
    ∀ (vs : List (List ℚ)) (b : List ℚ), b.length = L →
      (∀ v ∈ vs, v.length = L) → (vs.foldl vecMax b).length = L := by
  intro vs
  induction vs with
  | nil => intro b hb _; exact hb
  | cons c vs ih =>
    intro b hb hall
    show (vs.foldl vecMax (vecMax b c)).length = L
    apply ih
    · rw [vecMax_length, hb, hall c (List.mem_cons_self c vs)]
      omega
    · intro v hv
      exact hall v (List.mem_cons_of_mem c hv)

theorem rowsMin_length_const {L : ℕ} (vs : List (List ℚ)) (hne : vs ≠ [])
    (hall : ∀ v ∈ vs, v.length = L) : (rowsMin vs).length = L := by
  cases vs with
  | nil => exact absurd rfl hne
  | cons c vs =>
    exact foldl_vecMin_length_const vs c (hall c (List.mem_cons_self c vs))
      (fun v hv => hall v (List.mem_cons_of_mem c hv))

theorem rowsMax_length_const {L : ℕ} (vs : List (List ℚ)) (hne : vs ≠ [])
    (hall : ∀ v ∈ vs, v.length = L) : (rowsMax vs).length = L := by
  cases vs with
  | nil => exact absurd rfl hne
  | cons c vs =>
    exact foldl_vecMax_length_const vs c (hall c (List.mem_cons_self c vs))
      (fun v hv => hall v (List.mem_cons_of_mem c hv))

theorem getD_mem_of_lt {α : Type} (l : List α) (i : ℕ) (d : α) (h : i < l.length) :
    l.getD i d ∈ l := by
  rw [List.getD_eq_getElem?_getD, List.getElem?_eq_getElem h]
  exact List.getElem_mem h

theorem mergeby_rect2 (top : EnvL) (tiles : MMat) (hrect : rect2 top)
    (hvals : ∀ row ∈ tiles, ∀ c ∈ row, c.1 < lenE top)
    (hcounts : ∀ row ∈ tiles, 1 ≤ rowCount row) :
    rect2 (mergeby top tiles) ∧ lenE (mergeby top tiles) = tiles.length := by
  obtain ⟨hmins2, hmaxs2, hlens⟩ := hrect
  constructor
  · refine ⟨?_, ?_, ?_⟩
    · intro row' hrow'
      obtain ⟨row, hrow, heq⟩ := List.mem_map.mp hrow'
      subst heq
      apply rowsMin_length_const
      · intro hnil
        have := hcounts row hrow
        unfold rowCount at this
        rw [show compressedRow row = [] from by
          have := congrArg List.length (show ((compressedRow row).map
            fun i => top.mins.getD i []) = [] from hnil)
          rw [List.length_map] at this
          exact List.eq_nil_of_length_eq_zero this] at this
        simp at this
      · intro v hv
        obtain ⟨i, hi, hieq⟩ := List.mem_map.mp hv
        subst hieq
        obtain ⟨m, hm⟩ := mem_compressedRow hi
        have hilt : i < lenE top := hvals row hrow (i, m) hm
        exact hmins2 _ (getD_mem_of_lt top.mins i [] hilt)
    · intro row' hrow'
      obtain ⟨row, hrow, heq⟩ := List.mem_map.mp hrow'
      subst heq
      apply rowsMax_length_const
      · intro hnil
        have := hcounts row hrow
        unfold rowCount at this
        rw [show compressedRow row = [] from by
          have := congrArg List.length (show ((compressedRow row).map
            fun i => top.maxs.getD i []) = [] from hnil)
          rw [List.length_map] at this
          exact List.eq_nil_of_length_eq_zero this] at this
        simp at this
      · intro v hv
        obtain ⟨i, hi, hieq⟩ := List.mem_map.mp hv
        subst hieq
        obtain ⟨m, hm⟩ := mem_compressedRow hi
        have hilt : i < lenE top := hvals row hrow (i, m) hm
        have hilt' : i < top.maxs.length := by
          unfold lenE at hilt
          omega
        exact hmaxs2 _ (getD_mem_of_lt top.maxs i [] hilt')
    · show (tiles.map _).length = (tiles.map _).length
      rw [List.length_map, List.length_map]
  · show (tiles.map _).length = tiles.length
    rw [List.length_map]

theorem ndimsE_of_rect2 {e : EnvL} (h : rect2 e) (hne : 1 ≤ lenE e) :
    ndimsE e = 2 := by
  unfold ndimsE
  cases hm : e.mins with
  | nil =>
    exfalso
    unfold lenE at hne
    rw [hm] at hne
    simp at hne
  | cons a l =>
    show ((a :: l).headD []).length = 2
    rw [List.headD_cons]
    exact h.1 a (by rw [hm]; exact List.mem_cons_self a l)

theorem centers_length {e : EnvL} (h : e.maxs.length = e.mins.length) :
    (centers e).length = lenE e := by
  unfold centers lenE
  rw [List.length_zipWith, h, min_self]

theorem strLoop_some (p t : ℕ) (hp : 2 ≤ p) (ht : 1 ≤ t) :
    ∀ (fuel : ℕ) (top : EnvL) (rest : List EnvL) (chs : List MMat),
      rect2 top → lenE top ≤ fuel →
      ∃ b, strLoop p t fuel (top :: rest) chs = some b := by
  intro fuel
  induction fuel with
  | zero =>
    intro top rest chs _ hlen
    rw [strLoop_zero, if_pos (by omega)]
    exact ⟨_, rfl⟩
  | succ fuel ih =>
    intro top rest chs hrect hlen
    by_cases htop : lenE top ≤ t
    · rw [strLoop_succ, if_pos htop]
      exact ⟨_, rfl⟩
    · rw [strLoop_succ, if_neg htop]
      have hn2 : 2 ≤ lenE top := by omega
      have hnd : ndimsE top = 2 := ndimsE_of_rect2 hrect (by omega)
      rw [hnd]
      have hclen : (centers top).length = lenE top := centers_length hrect.2.2
      have hlt : (sort_tile p 2 (centers top)).length < lenE top := by
        rw [← hclen]
        exact sort_tile2_length_lt p hp _ (by omega)
      have hvals : ∀ row ∈ sort_tile p 2 (centers top), ∀ c ∈ row,
          c.1 < lenE top := by
        intro row hrow c hc
        rw [← hclen]
        exact sort_tile2_cell_values p _ (by omega) row hrow c hc
      have hcnt : ∀ row ∈ sort_tile p 2 (centers top), 1 ≤ rowCount row :=
        sort_tile2_rowCount_pos p _ (by omega)
      obtain ⟨hrect', hlen'⟩ :=
        mergeby_rect2 top (sort_tile p 2 (centers top)) hrect hvals hcnt
      exact ih (mergeby top (sort_tile p 2 (centers top))) (top :: rest)
        (sort_tile p 2 (centers top) :: chs) hrect' (by omega)

/-- C9 (amended): for every finite non-empty 2-D envelope collection, every
`page_size ≥ 2` (page size `1` makes the loop diverge) and every
`max_top_size ≥ 1`, `sort_tile_recurse` runs to completion — `lenE egeoms`
loop iterations suffice — and returns a BVH. -/
theorem sort_tile_recurse_terminates (egeoms : EnvL) (p t : ℕ)
    (hp : 2 ≤ p) (ht : 1 ≤ t) (hne : 1 ≤ lenE egeoms) (hrect : rect2 egeoms) :
    ∃ b, sort_tile_recurse egeoms p t (lenE egeoms) = some b := by
  unfold sort_tile_recurse
  exact strLoop_some p t hp ht (lenE egeoms) egeoms [] _ hrect (le_refl _)

/-- Witness for the amended C9 at a concrete input: the five-point collection
with `page_size = 2`, `max_top_size = 1`. -/
theorem sort_tile_recurse_terminates_witness :
    (2 ≤ 2 ∧ 1 ≤ 1 ∧ 1 ≤ lenE pts5 ∧ rect2 pts5) ∧
    ∃ b, sort_tile_recurse pts5 2 1 (lenE pts5) = some b :=
  ⟨⟨le_refl 2, le_refl 1, by decide, by unfold rect2; decide⟩,
    sort_tile_recurse_terminates pts5 2 1 (by decide) (by decide) (by decide)
      (by unfold rect2; decide)⟩

/-! ## The branch-and-bound search engine (`src/spindex/tree.py`, `BVH.search`) -/

/-- `QueryPath`: an active frontier item pairing query indices with the node
indices they are jointly tested against. -/
structure QueryPath where
  query : List ℕ
  target : List ℕ
deriving DecidableEq

/-- `envel[path.target]` — `AAMBRVect.__getitem__` with an index array. -/
def sliceE (e : EnvL) (idx : List ℕ) : EnvL where
  mins := idx.map fun i => e.mins.getD i []
  maxs := idx.map fun i => e.maxs.getD i []

/-- Lexicographic comparison of boolean rows, `False < True`: the order of
the rows' `tobytes()` hashes used by `groupby`. -/
def rowLeB : List Bool → List Bool → Bool
  | [], _ => true
  | _ :: _, [] => false
  | a :: as, b :: bs => if a = b then rowLeB as bs else !a

/-- `groupby`: group the row indices of a boolean matrix by equal row
values; groups are keyed by the distinct rows in hash order, each group
listing the positions holding that row. -/
def groupby (rows : List (List Bool)) : List (List ℕ) :=
  ((rows.dedup).insertionSort fun a b => rowLeB a b = true).map fun key =>
    (List.range rows.length).filter fun i => rows.getD i [] = key

/-- One path processed at one level of `BVH.search`: evaluate the predicate
matrix, peel off queries whose row is all-false (early stopping), group the
surviving rows by value, and give each group the concatenated unmasked
children of its selected nodes.  Returns the dropped queries and the next
paths. -/
def processPath (f : List ℕ → EnvL → List (List Bool)) (envel : EnvL)
    (children : MMat) (path : QueryPath) : List ℕ × List QueryPath :=
  let pred := f path.query (sliceE envel path.target)
  let qp := path.query.zip pred
  let emptyQ := (qp.filter fun x => !(x.2.any id)).map fun x => x.1
  let surv := qp.filter fun x => x.2.any id
  if surv.isEmpty then (emptyQ, [])
  else
    (emptyQ, (groupby (surv.map fun x => x.2)).map fun grp =>
      { query := grp.map fun i => (surv.map fun x => x.1).getD i 0
        target := (((path.target.zip
            ((surv.map fun x => x.2).getD (grp.headD 0) [])).filter
              fun x => x.2).map fun x => x.1).flatMap
          fun j => compressedRow (children.getD j []) })

/-- `BVH.search`: start from one path holding every query against every
top-level node, cascade level by level, and append the final all-empty path
holding the queries that matched nothing (`numpy.concatenate` of the
collected empty query arrays — which raises, modelled as `none`, exactly
when no level was traversed). -/
def search (w : ℕ) (levels : List (EnvL × MMat)) (M : ℕ)
    (f : List ℕ → EnvL → List (List Bool)) : Option (List QueryPath) :=
  let st := levels.foldl
    (fun st lv =>
      let results := st.1.map (processPath f lv.1 lv.2)
      (((results.map fun x => x.2).flatten : List QueryPath),
        st.2 ++ results.map fun x => x.1))
    ([⟨List.range M, List.range w⟩], ([] : List (List ℕ)))
  if st.2.isEmpty then none
  else some (st.1 ++ [⟨st.2.flatten, []⟩])

/-- `BVH.search` on a built hierarchy: the initial target is the top width
and the levels are the zipped envelope/children lists. -/
def searchB (b : BVHL) (M : ℕ) (f : List ℕ → EnvL → List (List Bool)) :
    Option (List QueryPath) :=
  search (widthB b) (b.envelopes.zip b.children) M f

/-- `_sparse_to_full`: position `i` receives the target of the (last) path
whose query set contains `i`; `none` models the Python `None` left when no
path owns the position. -/
def _sparse_to_full (paths : List QueryPath) (length : ℕ) :
    List (Option (List ℕ)) :=
  (List.range length).map fun i =>
    ((paths.filter fun path => decide (i ∈ path.query)).getLast?).map
      fun path => path.target

/-- Envelope-level `intersects` on coordinate rows (strict inequalities in
every dimension), list form. -/
def intersectsRowsB (amins amaxs bmins bmaxs : List ℚ) : Bool :=
  ((amins.zip bmaxs).zip (amaxs.zip bmins)).all fun x =>
    decide (x.1.1 < x.1.2) && decide (x.2.1 > x.2.2)

/-- The `search_func` built by `BVH.query` for the `intersects` predicate:
`obj[idx].intersects(envel)`, one boolean row per query index. -/
def intersectsF (obj : EnvL) (idx : List ℕ) (envel : EnvL) : List (List Bool) :=
  idx.map fun i => (List.range (lenE envel)).map fun j =>
    intersectsRowsB (obj.mins.getD i []) (obj.maxs.getD i [])
      (envel.mins.getD j []) (envel.maxs.getD j [])

/-- `BVH.query` with the `intersects` predicate, full (non-sparse) output. -/
def queryIntersects (b : BVHL) (obj : EnvL) : Option (List (Option (List ℕ))) :=
  (searchB b (lenE obj) (intersectsF obj)).map fun ps =>
    _sparse_to_full ps (lenE obj)


/-! ## Claim C8: building from an empty collection and querying the result -/

theorem zip_map_nil (q : List ℕ) :
    q.zip (q.map fun _ => ([] : List Bool)) = q.map fun x => (x, ([] : List Bool)) := by
  induction q with
  | nil => rfl
  | cons a l ih => simp only [List.map_cons, List.zip_cons_cons, ih]

theorem processPath_all_empty (f : List ℕ → EnvL → List (List Bool))
    (envel : EnvL) (children : MMat) (q tgt : List ℕ)
    (hf : f q (sliceE envel tgt) = q.map fun _ => ([] : List Bool)) :
    processPath f envel children ⟨q, tgt⟩ = (q, []) := by
  have h1 : ((q.map fun x => (x, ([] : List Bool))).filter
      fun x => !(x.2.any id)) = q.map fun x => (x, ([] : List Bool)) := by
    refine List.filter_eq_self.mpr ?_
    intro x hx
    obtain ⟨a, _, rfl⟩ := List.mem_map.mp hx
    rfl
  have h2 : ((q.map fun x => (x, ([] : List Bool))).filter
      fun x => x.2.any id) = [] := by
    refine List.filter_eq_nil_iff.mpr ?_
    intro x hx
    obtain ⟨a, _, rfl⟩ := List.mem_map.mp hx
    simp
  have h3 : ((q.map fun x => (x, ([] : List Bool))).map fun x => x.1) = q := by
    rw [List.map_map]
    exact List.map_id q
  dsimp only [processPath]
  rw [hf, zip_map_nil, h2]
  simp only [List.isEmpty_nil, if_true]
  rw [h1, h3]

/-- C8 counterexample: building an index from the empty envelope collection
(with the default page size 16 and max top size 1) yields a BVH whose depth
is `1`, not `0` as claimed: the Python loop `while len(envel[-1]) >
max_top_size` never runs, but `envel` was initialised to `[egeoms]`, so one
level remains. -/
theorem str_empty_depth_ne_zero :
    ∃ b, sort_tile_recurse E0 16 1 1 = some b ∧ depthB b ≠ 0 := by
  refine ⟨⟨[E0], [[]]⟩, ?_, by decide⟩
  with_unfolding_all rfl

/-- C8 (amended): building an index from the empty envelope collection
terminates for every page size, max top size and fuel, and yields a BVH of
depth `1` (a single all-empty level) with `0` leaves; querying it with the
`intersects` predicate against any batch returns an all-empty result (one
empty index list per query position) rather than an error. -/
theorem str_empty_build_query (p t fuel : ℕ) :
    ∃ b, sort_tile_recurse E0 p t fuel = some b ∧ depthB b = 1 ∧ lenB b = 0 ∧
      ∀ obj : EnvL,
        queryIntersects b obj = some (List.replicate (lenE obj) (some [])) := by
  have h0 : lenE E0 ≤ t := Nat.zero_le t
  refine ⟨⟨[E0], [[]]⟩, ?_, rfl, rfl, ?_⟩
  · unfold sort_tile_recurse
    cases fuel with
    | zero => rw [strLoop_zero, if_pos h0]; rfl
    | succ n => rw [strLoop_succ, if_pos h0]; rfl
  · intro obj
    have hpp : processPath (intersectsF obj) E0 []
        ⟨List.range (lenE obj), List.range (widthB ⟨[E0], [[]]⟩)⟩ =
        (List.range (lenE obj), []) :=
      processPath_all_empty _ _ _ _ _ rfl
    have hsearch : searchB ⟨[E0], [[]]⟩ (lenE obj) (intersectsF obj) =
        some [⟨List.range (lenE obj) ++ [], []⟩] := by
      have hstep : searchB ⟨[E0], [[]]⟩ (lenE obj) (intersectsF obj) =
          some (((processPath (intersectsF obj) E0 []
              ⟨List.range (lenE obj), List.range (widthB ⟨[E0], [[]]⟩)⟩).2 ++ []) ++
            [⟨(processPath (intersectsF obj) E0 []
              ⟨List.range (lenE obj), List.range (widthB ⟨[E0], [[]]⟩)⟩).1 ++ [],
              []⟩]) := rfl
      rw [hstep, hpp]
      rfl
    have h2 : _sparse_to_full [⟨List.range (lenE obj) ++ [], []⟩] (lenE obj) =
        List.replicate (lenE obj) (some []) := by
      unfold _sparse_to_full
      have hcong : ∀ i ∈ List.range (lenE obj),
          ((([(⟨List.range (lenE obj) ++ [], []⟩ : QueryPath)].filter
              fun path => decide (i ∈ path.query)).getLast?).map
            fun path => path.target) = some ([] : List ℕ) := by
        intro i hi
        have hi2 : i < lenE obj := List.mem_range.mp hi
        have hp : decide
            (i ∈ (⟨List.range (lenE obj) ++ [], []⟩ : QueryPath).query) = true := by
          simp [List.mem_range, hi2]
        simp [List.filter_cons, hp, hi2]
      rw [List.map_congr_left hcong, List.map_const', List.length_range]
    unfold queryIntersects
    rw [hsearch]
    exact congrArg some h2

/-! ## Claim C10: the search paths partition the query indices -/

/-- C10 counterexample: on a depth-0 BVH (the legal `BVH([], [])`, which the
class itself treats as the empty tree) the search raises a `ValueError` from
`numpy.concatenate([])` before any path is produced, so the full output does
not assign a target to every query position: the claim fails for this BVH
and any non-empty batch (here the five envelopes of `pts5`). -/
theorem search_empty_bvh_raises :
    queryIntersects ⟨[], []⟩ pts5 = none ∧ lenE pts5 = 5 := ⟨rfl, rfl⟩

theorem perm_shuffle (a b c d e g : List ℕ) (h1 : (c ++ a).Perm e)
    (h2 : (b ++ d).Perm g) : ((a ++ b) ++ (c ++ d)).Perm (e ++ g) := by
  refine List.perm_iff_count.mpr ?_
  intro x
  have k1 := h1.count_eq x
  have k2 := h2.count_eq x
  simp only [List.count_append] at k1 k2 ⊢
  omega

theorem map_getD_range {α : Type} (l : List α) (d : α) :
    (List.range l.length).map (fun i => l.getD i d) = l := by
  refine List.ext_getElem (by simp) ?_
  intro i h1 h2
  simp only [List.getElem_map, List.getElem_range]
  exact List.getD_eq_getElem l d h2

theorem count_range_eq (n a : ℕ) :
    (List.range n).count a = if a < n then 1 else 0 := by
  by_cases h : a < n
  · rw [if_pos h]
    exact List.count_eq_one_of_mem (List.nodup_range n) (List.mem_range.mpr h)
  · rw [if_neg h]
    exact List.count_eq_zero.mpr (by simp [List.mem_range, h])

theorem count_filter_range (n a : ℕ) (p : ℕ → Bool) :
    ((List.range n).filter p).count a = if a < n ∧ p a = true then 1 else 0 := by
  by_cases hp : p a = true
  · rw [List.count_filter hp, count_range_eq]
    by_cases h : a < n
    · rw [if_pos h, if_pos ⟨h, hp⟩]
    · rw [if_neg h, if_neg fun hc => h hc.1]
  · rw [List.count_eq_zero.mpr fun hmem => hp (List.mem_filter.mp hmem).2,
      if_neg fun hc => hp hc.2]

theorem sum_ite_nodup {α : Type} [DecidableEq α] (K : α) :
    ∀ keys : List α, keys.Nodup → K ∈ keys →
      (keys.map fun k => if K = k then 1 else 0).sum = 1 := by
  intro keys
  induction keys with
  | nil => intro _ hm; cases hm
  | cons k ks ih =>
    intro hnd hm
    rw [List.map_cons, List.sum_cons]
    rcases List.mem_cons.mp hm with hk | hk
    · rw [if_pos hk]
      have hnot : K ∉ ks := fun hmem => (List.nodup_cons.mp hnd).1 (hk ▸ hmem)
      have hz : (ks.map fun j => if K = j then 1 else 0).sum = 0 := by
        refine List.sum_eq_zero ?_
        intro x hx
        obtain ⟨j, hj, rfl⟩ := List.mem_map.mp hx
        rw [if_neg (fun hKj : K = j => hnot (hKj ▸ hj))]
      rw [hz]
    · rw [if_neg (fun hKk : K = k => (List.nodup_cons.mp hnd).1 (hKk ▸ hk))]
      rw [ih (List.nodup_cons.mp hnd).2 hk, Nat.zero_add]

theorem groupby_flatten_perm (rows : List (List Bool)) :
    (groupby rows).flatten.Perm (List.range rows.length) := by
  refine List.perm_iff_count.mpr ?_
  intro a
  rw [List.count_flatten]
  unfold groupby
  rw [List.map_map]
  have hterm : ∀ key ∈ (rows.dedup).insertionSort fun x y => rowLeB x y = true,
      (List.count a ∘ fun key => (List.range rows.length).filter
          fun i => decide (rows.getD i [] = key)) key =
        if a < rows.length ∧ rows.getD a [] = key then 1 else 0 := by
    intro key _
    show ((List.range rows.length).filter
        fun i => decide (rows.getD i [] = key)).count a = _
    rw [count_filter_range]
    simp only [decide_eq_true_eq]
  rw [List.map_congr_left hterm]
  by_cases h : a < rows.length
  · have h1 : (((rows.dedup).insertionSort fun x y => rowLeB x y = true).map
        fun key => if a < rows.length ∧ rows.getD a [] = key then 1 else 0) =
        ((rows.dedup).insertionSort fun x y => rowLeB x y = true).map
          fun key => if rows.getD a [] = key then 1 else 0 := by
      refine List.map_congr_left ?_
      intro key _
      by_cases hk : rows.getD a [] = key
      · rw [if_pos ⟨h, hk⟩, if_pos hk]
      · rw [if_neg fun hc => hk hc.2, if_neg hk]
    have hperm2 : ((rows.dedup).insertionSort
        fun x y => rowLeB x y = true).Perm rows.dedup :=
      List.perm_insertionSort _ _
    have hmemk : rows.getD a [] ∈
        (rows.dedup).insertionSort fun x y => rowLeB x y = true :=
      hperm2.mem_iff.mpr (List.mem_dedup.mpr (by
        rw [List.getD_eq_getElem rows [] h]
        exact List.getElem_mem h))
    rw [h1, sum_ite_nodup (rows.getD a []) _
        (hperm2.nodup_iff.mpr (List.nodup_dedup rows)) hmemk]
    rw [count_range_eq, if_pos h]
  · have h1 : (((rows.dedup).insertionSort fun x y => rowLeB x y = true).map
        fun key => if a < rows.length ∧ rows.getD a [] = key then 1 else 0) =
        ((rows.dedup).insertionSort fun x y => rowLeB x y = true).map
          fun _ => 0 := by
      refine List.map_congr_left ?_
      intro key _
      rw [if_neg fun hc => h hc.1]
    rw [h1, count_range_eq, if_neg h]
    simp

theorem groups_map_getD_perm (surv : List (ℕ × List Bool)) :
    ((groupby (surv.map fun x => x.2)).map fun grp =>
      grp.map fun i => (surv.map fun x => x.1).getD i 0).flatten.Perm
      (surv.map fun x => x.1) := by
  have h0 : ((groupby (surv.map fun x => x.2)).map fun grp =>
      grp.map fun i => (surv.map fun x => x.1).getD i 0).flatten =
      (groupby (surv.map fun x => x.2)).flatten.map
        fun i => (surv.map fun x => x.1).getD i 0 :=
    (List.map_flatten ..).symm
  rw [h0]
  have h1 := (groupby_flatten_perm (surv.map fun x => x.2)).map
    fun i => (surv.map fun x => x.1).getD i 0
  refine h1.trans ?_
  rw [List.length_map]
  rw [show surv.length = (surv.map fun x => x.1).length from
    (List.length_map _ _).symm]
  rw [map_getD_range]

theorem map_query_mk (G : List (List ℕ)) (gq tf : List ℕ → List ℕ) :
    ((G.map fun grp => (⟨gq grp, tf grp⟩ : QueryPath)).map QueryPath.query) =
      G.map fun grp => gq grp := by
  rw [List.map_map]
  refine List.map_congr_left ?_
  intro g _
  rfl

theorem processPath_query_perm (f : List ℕ → EnvL → List (List Bool))
    (envel : EnvL) (children : MMat) (path : QueryPath)
    (hf : (f path.query (sliceE envel path.target)).length = path.query.length) :
    ((processPath f envel children path).1 ++
      (((processPath f envel children path).2).map QueryPath.query).flatten).Perm
      path.query := by
  have hq : (path.query.zip (f path.query (sliceE envel path.target))).map
      (fun x => x.1) = path.query :=
    List.map_fst_zip _ _ (le_of_eq hf.symm)
  have h8 : (((path.query.zip (f path.query (sliceE envel path.target))).filter
        fun x => !(x.2.any id)) ++
      ((path.query.zip (f path.query (sliceE envel path.target))).filter
        fun x => x.2.any id)).Perm
      (path.query.zip (f path.query (sliceE envel path.target))) :=
    List.perm_append_comm.trans
      (List.filter_append_perm (fun x : ℕ × List Bool => x.2.any id) _)
  have h9 := h8.map fun x : ℕ × List Bool => x.1
  rw [List.map_append, hq] at h9
  dsimp only [processPath]
  by_cases hs : ((path.query.zip (f path.query (sliceE envel path.target))).filter
      fun x => x.2.any id).isEmpty = true
  · rw [if_pos hs]
    dsimp only
    simp only [List.map_nil, List.flatten_nil, List.append_nil]
    have hsnil : ((path.query.zip (f path.query (sliceE envel path.target))).filter
        fun x => x.2.any id) = [] := List.isEmpty_iff.mp hs
    rw [hsnil, List.map_nil, List.append_nil] at h9
    exact h9
  · rw [if_neg hs]
    dsimp only
    rw [map_query_mk]
    have hgroups := groups_map_getD_perm
      ((path.query.zip (f path.query (sliceE envel path.target))).filter
        fun x => x.2.any id)
    exact (hgroups.append_left _).trans h9

def stepFn (f : List ℕ → EnvL → List (List Bool))
    (st : List QueryPath × List (List ℕ)) (lv : EnvL × MMat) :
    List QueryPath × List (List ℕ) :=
  (((st.1.map (processPath f lv.1 lv.2)).map fun x => x.2).flatten,
    st.2 ++ (st.1.map (processPath f lv.1 lv.2)).map fun x => x.1)

theorem search_eq (w : ℕ) (levels : List (EnvL × MMat)) (M : ℕ)
    (f : List ℕ → EnvL → List (List Bool)) :
    search w levels M f =
      if (levels.foldl (stepFn f)
          ([⟨List.range M, List.range w⟩], ([] : List (List ℕ)))).2.isEmpty
      then none
      else some ((levels.foldl (stepFn f)
          ([⟨List.range M, List.range w⟩], ([] : List (List ℕ)))).1 ++
        [⟨(levels.foldl (stepFn f)
          ([⟨List.range M, List.range w⟩], ([] : List (List ℕ)))).2.flatten,
          []⟩]) := rfl

theorem stepFn_snd_ne_nil (f : List ℕ → EnvL → List (List Bool))
    (st : List QueryPath × List (List ℕ)) (lv : EnvL × MMat)
    (h : st.2 ≠ []) : (stepFn f st lv).2 ≠ [] := by
  dsimp only [stepFn]
  exact List.append_ne_nil_of_ne_nil_left h _

theorem foldl_stepFn_snd_ne_nil (f : List ℕ → EnvL → List (List Bool)) :
    ∀ (levels : List (EnvL × MMat)) (st : List QueryPath × List (List ℕ)),
      st.2 ≠ [] → ((levels.foldl (stepFn f) st)).2 ≠ []
  | [], _, h => h
  | lv :: rest, st, h =>
    foldl_stepFn_snd_ne_nil f rest _ (stepFn_snd_ne_nil f st lv h)

theorem paths_step_perm (f : List ℕ → EnvL → List (List Bool))
    (envel : EnvL) (children : MMat)
    (hf : ∀ q e, (f q e).length = q.length) :
    ∀ paths : List QueryPath,
      (((((paths.map (processPath f envel children)).map
            fun x => x.2).flatten).map QueryPath.query).flatten ++
        (((paths.map (processPath f envel children)).map
            fun x => x.1)).flatten).Perm
        ((paths.map QueryPath.query).flatten) := by
  intro paths
  induction paths with
  | nil => exact List.Perm.refl _
  | cons path ps ih =>
    simp only [List.map_cons, List.flatten_cons, List.map_append,
      List.flatten_append]
    exact perm_shuffle _ _ _ _ _ _
      (processPath_query_perm f envel children path (hf _ _)) ih

theorem foldl_stepFn_query_perm (f : List ℕ → EnvL → List (List Bool))
    (hf : ∀ q e, (f q e).length = q.length) :
    ∀ (levels : List (EnvL × MMat)) (st : List QueryPath × List (List ℕ)),
      ((((levels.foldl (stepFn f) st).1.map QueryPath.query).flatten) ++
        ((levels.foldl (stepFn f) st).2.flatten)).Perm
        (((st.1.map QueryPath.query).flatten) ++ st.2.flatten) := by
  intro levels
  induction levels with
  | nil => intro st; exact List.Perm.refl _
  | cons lv rest ih =>
    intro st
    rw [List.foldl_cons]
    refine (ih (stepFn f st lv)).trans ?_
    dsimp only [stepFn]
    rw [List.flatten_append]
    have h2 := paths_step_perm f lv.1 lv.2 hf st.1
    refine List.perm_iff_count.mpr ?_
    intro x
    have k2 := h2.count_eq x
    simp only [List.count_append] at k2 ⊢
    omega

theorem search_some_parts (w M : ℕ) (f : List ℕ → EnvL → List (List Bool))
    (levels : List (EnvL × MMat)) (hlv : levels ≠ [])
    (hf : ∀ q e, (f q e).length = q.length) :
    ∃ ps, search w levels M f = some ps ∧
      ((ps.map QueryPath.query).flatten).Perm (List.range M) ∧
      (∃ z, ps.getLast? = some z ∧ z.target = ([] : List ℕ)) ∧
      (_sparse_to_full ps M).length = M ∧
      ∀ o ∈ _sparse_to_full ps M, o.isSome = true := by
  have hsnd : (levels.foldl (stepFn f)
      ([⟨List.range M, List.range w⟩], ([] : List (List ℕ)))).2 ≠ [] := by
    obtain ⟨lv, rest, hcons⟩ := List.exists_cons_of_ne_nil hlv
    rw [hcons, List.foldl_cons]
    exact foldl_stepFn_snd_ne_nil f rest _ (List.cons_ne_nil _ _)
  have hps : search w levels M f =
      some ((levels.foldl (stepFn f)
          ([⟨List.range M, List.range w⟩], ([] : List (List ℕ)))).1 ++
        [⟨(levels.foldl (stepFn f)
          ([⟨List.range M, List.range w⟩], ([] : List (List ℕ)))).2.flatten,
          []⟩]) := by
    rw [search_eq, if_neg fun hc => hsnd (List.isEmpty_iff.mp hc)]
  have hinv := foldl_stepFn_query_perm f hf levels
    ([⟨List.range M, List.range w⟩], ([] : List (List ℕ)))
  have hperm : (((((levels.foldl (stepFn f)
        ([⟨List.range M, List.range w⟩], ([] : List (List ℕ)))).1 ++
        [(⟨(levels.foldl (stepFn f)
          ([⟨List.range M, List.range w⟩], ([] : List (List ℕ)))).2.flatten,
          []⟩ : QueryPath)]).map QueryPath.query).flatten)).Perm (List.range M) := by
    simp only [List.map_append, List.flatten_append, List.map_cons,
      List.map_nil, List.flatten_cons, List.flatten_nil, List.append_nil] at hinv ⊢
    exact hinv
  have hlast : (((levels.foldl (stepFn f)
      ([⟨List.range M, List.range w⟩], ([] : List (List ℕ)))).1 ++
      [(⟨(levels.foldl (stepFn f)
        ([⟨List.range M, List.range w⟩], ([] : List (List ℕ)))).2.flatten,
        []⟩ : QueryPath)]).getLast?) = some (⟨(levels.foldl (stepFn f)
        ([⟨List.range M, List.range w⟩], ([] : List (List ℕ)))).2.flatten,
        []⟩ : QueryPath) := by
    simp
  refine ⟨_, hps, hperm, ⟨_, hlast, rfl⟩, by simp [_sparse_to_full], ?_⟩
  intro o ho
  simp only [_sparse_to_full, List.mem_map, List.mem_range] at ho
  obtain ⟨i, hi, rfl⟩ := ho
  rw [Option.isSome_map', List.getLast?_isSome]
  have hiq := hperm.mem_iff.mpr (List.mem_range.mpr hi)
  obtain ⟨ql, hql, hiql⟩ := List.mem_flatten.mp hiq
  obtain ⟨path, hpath, rfl⟩ := List.mem_map.mp hql
  exact List.ne_nil_of_mem
    (List.mem_filter.mpr ⟨hpath, by simpa using hiql⟩)

/-- C10 (amended): for every BVH with at least one (envelope, children) level
and every predicate function producing one boolean row per query index,
`BVH.search` on a batch of size `M` succeeds and returns paths whose query
index sets are pairwise disjoint and together cover `[0, M)` (their
concatenation is a permutation of `range M`), the final path (holding the
queries that matched nothing) has an empty target, and the full output
`_sparse_to_full` assigns exactly one (`some`) target list to each of the `M`
positions.  On a depth-0 BVH the search instead raises (returns `none`). -/
theorem search_partitions_queries (b : BVHL) (M : ℕ)
    (f : List ℕ → EnvL → List (List Bool))
    (hlv : b.envelopes.zip b.children ≠ [])
    (hf : ∀ q e, (f q e).length = q.length) :
    ∃ ps, searchB b M f = some ps ∧
      ((ps.map QueryPath.query).flatten).Perm (List.range M) ∧
      (∃ z, ps.getLast? = some z ∧ z.target = ([] : List ℕ)) ∧
      (_sparse_to_full ps M).length = M ∧
      ∀ o ∈ _sparse_to_full ps M, o.isSome = true :=
  search_some_parts (widthB b) M f (b.envelopes.zip b.children) hlv hf

/-- One-level BVH over the two point envelopes `pts2`, with the identity
children column. -/
def bvh1 : BVHL := ⟨[pts2], [[[(0, false)], [(1, false)]]]⟩

/-- C10 witness: the amended theorem applied to the one-level BVH `bvh1`,
three query positions and the `intersects` predicate rows of `pts5`. -/
theorem search_partitions_queries_witness :
    ∃ ps, searchB bvh1 3 (intersectsF pts5) = some ps ∧
      ((ps.map QueryPath.query).flatten).Perm (List.range 3) ∧
      (∃ z, ps.getLast? = some z ∧ z.target = ([] : List ℕ)) ∧
      (_sparse_to_full ps 3).length = 3 ∧
      ∀ o ∈ _sparse_to_full ps 3, o.isSome = true :=
  search_partitions_queries bvh1 3 (intersectsF pts5)
    (List.cons_ne_nil _ _) (fun q _ => List.length_map _ _)

end Spindex
